import Mathlib

/-
Verification of the docmostsaurus workspace synchronization engine.

The Go sources are embedded shallowly:
* strings are modelled as `List Char` (one element per Unicode scalar;
  Go `for range` iterates scalars, and the byte-indexed loops of
  placeholder.go are modelled scalar-wise, which agrees with the source
  on the ASCII inputs used in the theorems below);
* the filesystem is a tree of named entries (`Fs`/`Ents`); directory
  listings are kept in the lexicographic order in which
  `os.ReadDir`/`filepath.Walk` enumerate them;
* fallible operations either return `Option`/flags or are modelled with
  explicit fault parameters where a claim is about failure handling.
-/

namespace Docmost

/-- Go strings, one list element per Unicode scalar value. -/
abbrev GoStr := List Char

/-- The backtick character (U+0060), kept as a named constant. -/
def cBacktick : Char := Char.ofNat 96

/-- The left curly brace character (U+007B). -/
def cLbrace : Char := Char.ofNat 123

/-- The right curly brace character (U+007D). -/
def cRbrace : Char := Char.ofNat 125

/-- The single-quote character (U+0027). -/
def cSquote : Char := Char.ofNat 39

/-- The double-quote character (U+0022). -/
def cDquote : Char := Char.ofNat 34

/-- ASCII whitespace, the fragment of Go `unicode.IsSpace` relevant to the
ASCII names and contents handled in this development. -/
def isGoSpace (c : Char) : Bool :=
  c = ' ' || c = '\t' || c = '\n' || c = '\x0b' || c = '\x0c' || c = '\r'

/-- Go `strings.TrimSpace` (ASCII whitespace fragment). -/
def goTrimSpace (s : GoStr) : GoStr :=
  (s.dropWhile isGoSpace).reverse.dropWhile isGoSpace |>.reverse

/-- Go `strings.TrimLeft(s, "-")` / `strings.Trim(s, "-")` building block:
drop the given character from both ends. -/
def goTrimChar (c : Char) (s : GoStr) : GoStr :=
  (s.dropWhile (· = c)).reverse.dropWhile (· = c) |>.reverse

/-- Go `strings.HasPrefix`. -/
def goStartsWith : GoStr → GoStr → Bool
  | _, [] => true
  | [], _ :: _ => false
  | c :: s, p :: ps => c = p && goStartsWith s ps

/-- Go `strings.HasSuffix`. -/
def goEndsWith (s pat : GoStr) : Bool :=
  goStartsWith s.reverse pat.reverse

/-- Go `strings.Contains(s, sub)` for a nonempty pattern. -/
def goContainsSub (s pat : GoStr) : Bool :=
  match s with
  | [] => goStartsWith [] pat
  | _ :: rest => goStartsWith s pat || goContainsSub rest pat

/-- Go `strings.Index(s, pat)`: index of the first occurrence, `none` when
absent (Go returns -1). -/
def goIndexOfSub (s pat : GoStr) : Option Nat :=
  match s with
  | [] => if goStartsWith [] pat then some 0 else none
  | _ :: rest =>
    if goStartsWith s pat then some 0
    else (goIndexOfSub rest pat).map (· + 1)

/-- Go `strings.Split(s, sep)` for a single-character separator. -/
def goSplitOnChar (sep : Char) (s : GoStr) : List GoStr :=
  match s with
  | [] => [[]]
  | c :: rest =>
    let r := goSplitOnChar sep rest
    if c = sep then [] :: r
    else
      match r with
      | [] => [[c]]
      | h :: t => (c :: h) :: t

/-- Join string pieces with a separator, Go `strings.Join`. -/
def goJoin (sep : GoStr) : List GoStr → GoStr
  | [] => []
  | [s] => s
  | s :: rest => s ++ sep ++ goJoin sep rest

/-- ASCII lower-casing of one character, the fragment of Go
`strings.ToLower` exercised by the `.md`/`untitled` checks (no scalar
outside ASCII lower-cases onto the ASCII letters involved). -/
def goToLowerChar (c : Char) : Char :=
  if 'A' ≤ c ∧ c ≤ 'Z' then Char.ofNat (c.toNat + 32) else c

/-- Go `strings.ToLower` (ASCII fragment, see `goToLowerChar`). -/
def goToLower (s : GoStr) : GoStr := s.map goToLowerChar

/-- One left-to-right, non-overlapping pass of
Go `strings.ReplaceAll(s, "--", "-")`. -/
def replaceDoubleHyphenOnce : GoStr → GoStr
  | [] => []
  | [c] => [c]
  | c :: d :: rest =>
    if c = '-' ∧ d = '-' then '-' :: replaceDoubleHyphenOnce rest
    else c :: replaceDoubleHyphenOnce (d :: rest)

/-- The Go loop `for strings.Contains(s, "--") { s = ReplaceAll(s, "--", "-") }`.
Each pass on a string containing `--` removes at least one character, so
`s.length` passes always suffice; the fuel only makes termination evident. -/
def collapseHyphensAux : Nat → GoStr → GoStr
  | 0, s => s
  | fuel + 1, s =>
    if goContainsSub s ['-', '-'] then
      collapseHyphensAux fuel (replaceDoubleHyphenOnce s)
    else s

/-- `cleanupHyphens` of romanize.go without the trim, and the identical
inline loops of sanitize.go: collapse consecutive hyphens. -/
def collapseHyphens (s : GoStr) : GoStr := collapseHyphensAux s.length s

/-- `cleanupHyphens` (romanize.go lines 214-222): collapse `--` runs and
trim leading/trailing hyphens. -/
def cleanupHyphens (s : GoStr) : GoStr := goTrimChar '-' (collapseHyphens s)

/-! ## The transliteration engine, internal/hangul/romanize.go -/

/-- 초성 table (romanize.go line 11): the 19 lead consonants. -/
def initials : List GoStr :=
  ["g".data, "kk".data, "n".data, "d".data, "tt".data, "r".data, "m".data,
   "b".data, "pp".data, "s".data, "ss".data, "".data, "j".data, "jj".data,
   "ch".data, "k".data, "t".data, "p".data, "h".data]

/-- 중성 table (romanize.go line 13): the 21 vowels. -/
def medials : List GoStr :=
  ["a".data, "ae".data, "ya".data, "yae".data, "eo".data, "e".data,
   "yeo".data, "ye".data, "o".data, "wa".data, "wae".data, "oe".data,
   "yo".data, "u".data, "wo".data, "we".data, "wi".data, "yu".data,
   "eu".data, "ui".data, "i".data]

/-- 종성 table (romanize.go line 15): the 28 trailing consonants, index 0
meaning "no trailing consonant". -/
def finals : List GoStr :=
  ["".data, "k".data, "k".data, "ks".data, "n".data, "nj".data, "nh".data,
   "d".data, "l".data, "lg".data, "lm".data, "lb".data, "ls".data,
   "lt".data, "lp".data, "lh".data, "m".data, "b".data, "bs".data,
   "s".data, "ss".data, "ng".data, "j".data, "ch".data, "k".data,
   "t".data, "p".data, "h".data]

/-- `specialCharReplacements` (romanize.go lines 18-29). -/
def specialCharReplacements (c : Char) : Option GoStr :=
  if c = '&' then some "-and-".data
  else if c = '+' then some "-plus-".data
  else if c = '@' then some "-at-".data
  else if c = '#' then some "-num-".data
  else if c = '%' then some "-pct-".data
  else if c = '=' then some "-eq-".data
  else if c = '-' then some "-".data
  else if c = '_' then some "_".data
  else if c = '.' then some ".".data
  else if c = '/' then some "/".data
  else none

/-- `charactersToRemove` (romanize.go lines 32-53). -/
def charactersToRemove (c : Char) : Bool :=
  c = '(' || c = ')' || c = '[' || c = ']' || c = cLbrace || c = cRbrace ||
  c = cSquote || c = cDquote || c = ',' || c = ';' || c = '!' || c = '$' ||
  c = '^' || c = cBacktick || c = '~' || c = '<' || c = '>' || c = '|' ||
  c = '*' || c = '?'

/-- `isASCIIAlphanumOrSpace` (romanize.go lines 57-59). -/
def isASCIIAlphanumOrSpace (c : Char) : Bool :=
  ('a' ≤ c && c ≤ 'z') || ('A' ≤ c && c ≤ 'Z') ||
  ('0' ≤ c && c ≤ '9') || c = ' '

/-- Modelled from the spec: `gohangul.IsHangul` of the external
`suapapa/go_hangul` dependency, whose source is not in the repository
snapshot.  Per spec §4.1 the structured-syllable branch applies to "a
defined structured-syllable range", the precomposed Hangul syllable block
U+AC00..U+D7A3. -/
def isHangulScalar (n : Nat) : Bool := 0xAC00 ≤ n && n ≤ 0xD7A3

/-- Modelled from the spec: `gohangul.Split` of the external
`suapapa/go_hangul` dependency.  A syllable decomposes "via a fixed
arithmetic offset into three component indices (lead, vowel, optional
trailing)" (spec §4.1): lead jamo U+1100+, medial jamo U+1161+, trailing
jamo U+11A7+ with 0 meaning no trailing consonant. -/
def hangulSplit (n : Nat) : Nat × Nat × Nat :=
  let o := n - 0xAC00
  (0x1100 + o / 588, 0x1161 + o % 588 / 28,
   if o % 28 = 0 then 0 else 0x11A7 + o % 28)

/-- The body of `Romanize`'s per-scalar loop (romanize.go lines 65-108). -/
def romanizeChar (c : Char) : GoStr :=
  if ¬ isHangulScalar c.toNat then
    if isASCIIAlphanumOrSpace c then [c]
    else if charactersToRemove c then []
    else
      match specialCharReplacements c with
      | some r => r
      | none => [c]
  else
    let (i, m, f) := hangulSplit c.toNat
    let idxI := i - 0x1100
    let idxM := m - 0x1161
    let idxF := if f ≠ 0 then f - 0x11A7 else 0
    (if idxI < initials.length then initials.getD idxI [] else []) ++
    (if idxM < medials.length then medials.getD idxM [] else []) ++
    (if 0 < idxF ∧ idxF < finals.length then finals.getD idxF [] else [])

/-- `Romanize` (romanize.go lines 63-111). -/
def Romanize (w : GoStr) : GoStr := w.flatMap romanizeChar

/-! ## The working-tree model

A directory tree of named entries.  Directory listings are kept sorted by
name (the order `os.ReadDir` returns and `filepath.Walk` visits), so a
tree value is the canonical observation of the on-disk state. -/

mutual

/-- A file with contents, or a directory with named entries. -/
inductive Fs where
  | file : GoStr → Fs
  | dir : Ents → Fs

/-- A directory listing: a sequence of (name, entry) pairs. -/
inductive Ents where
  | nil : Ents
  | cons : GoStr → Fs → Ents → Ents

end

/-- Build a listing from a list of (name, entry) pairs. -/
def entsOf : List (GoStr × Fs) → Ents
  | [] => .nil
  | (n, e) :: rest => .cons n e (entsOf rest)

/-- Byte-wise (scalar-wise) string order; on UTF-8 encodings the bytewise
order Go sorts directory entries by coincides with scalar-lex order. -/
def goStrLt : GoStr → GoStr → Bool
  | [], [] => false
  | [], _ :: _ => true
  | _ :: _, [] => false
  | a :: s, b :: t => a < b || (a = b && goStrLt s t)

/-- Look a name up in a directory listing. -/
def lookupEntry : Ents → GoStr → Option Fs
  | .nil, _ => none
  | .cons m e rest, n => if m = n then some e else lookupEntry rest n

/-- Remove a name from a directory listing. -/
def eraseEntry : Ents → GoStr → Ents
  | .nil, _ => .nil
  | .cons m e rest, n =>
    if m = n then rest else .cons m e (eraseEntry rest n)

/-- Replace the entry of an existing name, keeping its position. -/
def replaceEntry : Ents → GoStr → Fs → Ents
  | .nil, _, _ => .nil
  | .cons m e rest, n, e' =>
    if m = n then .cons m e' rest else .cons m e (replaceEntry rest n e')

/-- Insert a fresh name at its sorted position. -/
def insertEntry : Ents → GoStr → Fs → Ents
  | .nil, n, e => .cons n e .nil
  | .cons m f rest, n, e =>
    if goStrLt n m then .cons n e (.cons m f rest)
    else .cons m f (insertEntry rest n e)

/-- Write a name into a listing: replace if present, else sorted insert. -/
def setEntry (es : Ents) (n : GoStr) (e : Fs) : Ents :=
  match lookupEntry es n with
  | some _ => replaceEntry es n e
  | none => insertEntry es n e

/-- Resolve a relative path (`[]` is the root itself). -/
def getPath (t : Fs) : List GoStr → Option Fs
  | [] => some t
  | n :: rest =>
    match t with
    | .file _ => none
    | .dir es =>
      match lookupEntry es n with
      | some e => getPath e rest
      | none => none

/-- `os.Remove` / `os.RemoveAll` of a path: drop the entry if the whole
path exists; otherwise leave the tree unchanged. -/
def removePath (t : Fs) : List GoStr → Fs
  | [] => t
  | [n] =>
    match t with
    | .file c => .file c
    | .dir es => .dir (eraseEntry es n)
  | n :: rest =>
    match t with
    | .file c => .file c
    | .dir es =>
      match lookupEntry es n with
      | some e => .dir (replaceEntry es n (removePath e rest))
      | none => .dir es

/-- Place an entry at a path whose parent directory already exists
(`os.Rename` target / `os.WriteFile`); no intermediate directories are
created, and a missing parent leaves the tree unchanged (the source
logs such failures and continues). -/
def setPath (t : Fs) (p : List GoStr) (v : Fs) : Fs :=
  match p with
  | [] => t
  | [n] =>
    match t with
    | .file c => .file c
    | .dir es => .dir (setEntry es n v)
  | n :: rest =>
    match t with
    | .file c => .file c
    | .dir es =>
      match lookupEntry es n with
      | some e => .dir (replaceEntry es n (setPath e rest v))
      | none => .dir es

/-- `os.MkdirAll`: create every missing directory of the path; an existing
file in the way leaves the tree unchanged (the callers log the error and
skip). -/
def mkdirAll (t : Fs) (p : List GoStr) : Fs :=
  match p with
  | [] => t
  | n :: rest =>
    match t with
    | .file c => .file c
    | .dir es =>
      match lookupEntry es n with
      | some (.dir sub) =>
        .dir (replaceEntry es n (mkdirAll (.dir sub) rest))
      | some (.file _) => .dir es
      | none => .dir (insertEntry es n (mkdirAll (.dir .nil) rest))

/-- `filepath.Walk` visit order over the entries of a directory, root
excluded: every path paired with whether it is a directory, parents
before their contents, siblings in listing order. -/
def walkEnts (pfx : List GoStr) : Ents → List (List GoStr × Bool)
  | .nil => []
  | .cons n (Fs.file _) rest => (pfx ++ [n], false) :: walkEnts pfx rest
  | .cons n (Fs.dir sub) rest =>
    (pfx ++ [n], true) :: (walkEnts (pfx ++ [n]) sub ++ walkEnts pfx rest)

/-- All walk entries of a tree (paths relative to the root, root itself
excluded as every pass skips `path == spaceDir`). -/
def fsWalk (t : Fs) : List (List GoStr × Bool) :=
  match t with
  | .file _ => []
  | .dir es => walkEnts [] es

/-- Every file of a listing as a (path, contents) pair, in walk order. -/
def filesEnts (pfx : List GoStr) : Ents → List (List GoStr × GoStr)
  | .nil => []
  | .cons n (Fs.file c) rest => (pfx ++ [n], c) :: filesEnts pfx rest
  | .cons n (Fs.dir sub) rest =>
    filesEnts (pfx ++ [n]) sub ++ filesEnts pfx rest

/-- All files of a tree. -/
def fsFiles (t : Fs) : List (List GoStr × GoStr) :=
  match t with
  | .file _ => []
  | .dir es => filesEnts [] es

/-- Sort by path depth, deepest first, as the passes' `sort.Slice` calls
do on the separator count of the full path (insertion sort; the source's
comparator is a strict order on depths, and every input below has
pairwise distinct depths or a single element, so unstable `sort.Slice`
produces the same list). -/
def insertByDepth (p : List GoStr) : List (List GoStr) → List (List GoStr)
  | [] => [p]
  | q :: rest =>
    if q.length < p.length then p :: q :: rest
    else q :: insertByDepth p rest

/-- Depth-descending sort of collected paths. -/
def sortByDepthDesc (ps : List (List GoStr)) : List (List GoStr) :=
  ps.foldr insertByDepth []

/-! ## Directory merging, internal/postprocess/romanize.go -/

/-- `mergeDirectoryContents` (romanize.go lines 439-498), the
destination-wins merge used by the folder-fold passes and the sanitize
pass.  Go mutates both directories and stops at the first error; the
model returns (remaining source entries, new destination entries,
success flag): a conflicting source file is removed and the destination
copy kept; a fresh entry is moved; directory/directory pairs merge
recursively and the drained source directory is removed; a source
directory meeting a destination file makes the `os.Rename` fail, which
aborts the merge with the source entry still in place. -/
def mergeGo : Ents → Ents → Ents × Ents × Bool
  | .nil, dst => (.nil, dst, true)
  | .cons n (Fs.file c) rest, dst =>
    match lookupEntry dst n with
    | some _ => mergeGo rest dst
    | none => mergeGo rest (insertEntry dst n (Fs.file c))
  | .cons n (Fs.dir sub) rest, dst =>
    match lookupEntry dst n with
    | none => mergeGo rest (insertEntry dst n (Fs.dir sub))
    | some (Fs.file _) => (.cons n (Fs.dir sub) rest, dst, false)
    | some (Fs.dir dsub) =>
      let r := mergeGo sub dsub
      if r.2.2 then mergeGo rest (replaceEntry dst n (Fs.dir r.2.1))
      else (.cons n (Fs.dir r.1) rest, replaceEntry dst n (Fs.dir r.2.1),
        false)

/-- `copyFilesToDestination` (romanize.go lines 300-343): copy entries of
a source `files/` directory into a destination listing without
overwriting; subdirectories are copied recursively, existing destination
files are kept, and the source is left untouched by the caller. -/
def copyFilesGo : Ents → Ents → Ents
  | .nil, dst => dst
  | .cons n (Fs.dir sub) rest, dst =>
    match lookupEntry dst n with
    | some (Fs.dir dsub) =>
      copyFilesGo rest (replaceEntry dst n (Fs.dir (copyFilesGo sub dsub)))
    | some (Fs.file _) => copyFilesGo rest dst
    | none => copyFilesGo rest (insertEntry dst n (Fs.dir (copyFilesGo sub .nil)))
  | .cons n (Fs.file c) rest, dst =>
    match lookupEntry dst n with
    | some _ => copyFilesGo rest dst
    | none => copyFilesGo rest (insertEntry dst n (Fs.file c))

/-- `os.Rename(src, dst)` between tree paths: moves the entry when the
source exists, the destination's parent is a directory and the
destination is not an existing directory (renaming onto an existing
file replaces it); otherwise the rename fails and the callers log and
continue, leaving the tree unchanged. -/
def renameGo (t : Fs) (src dst : List GoStr) : Fs :=
  match getPath t src with
  | none => t
  | some e =>
    match getPath t dst.dropLast with
    | some (Fs.dir _) =>
      match getPath t dst with
      | some (Fs.dir _) => t
      | _ => setPath (removePath t src) dst e
    | _ => t

/-- `mergeDirectoryContents` applied between two paths of one tree, as
the passes call it on sibling directories: on any failure the partially
merged state is kept (Go mutated in place) and the flag is false. -/
def mergeDirectoryContentsAt (t : Fs) (srcP dstP : List GoStr) :
    Fs × Bool :=
  match getPath t srcP, getPath t dstP with
  | some (Fs.dir ses), some (Fs.dir des) =>
    let r := mergeGo ses des
    let t1 := setPath t dstP (Fs.dir r.2.1)
    let t2 := setPath t1 srcP (Fs.dir r.1)
    (t2, r.2.2)
  | _, _ => (t, false)

/-- `copyFilesToDestination` applied between two paths of one tree: the
destination directory is created first (`os.MkdirAll`), then the source
entries are copied without overwriting. -/
def copyFilesAt (t : Fs) (srcP dstP : List GoStr) : Fs :=
  let t1 := mkdirAll t dstP
  match getPath t1 srcP, getPath t1 dstP with
  | some (Fs.dir ses), some (Fs.dir des) =>
    setPath t1 dstP (Fs.dir (copyFilesGo ses des))
  | _, _ => t1

/-! ## Name sanitization, internal/postprocess/sanitize.go -/

/-- `needsSanitizing` (sanitize.go lines 102-111): the name contains one
of the special characters (space included). -/
def needsSanitizing (name : GoStr) : Bool :=
  [' ', '&', '+', '(', ')', '[', ']', cLbrace, cRbrace, cSquote, cDquote,
   ',', ';', '!', '@', '#', '$', '%', '^', '=', cBacktick, '~'].any
    (fun c => name.contains c)

/-- The `strings.NewReplacer` of `sanitizeName` (sanitize.go lines
125-148); every pattern is a single character, so the replacer is a
character-wise map.  The space replacement is commented out in the
source, so spaces pass through. -/
def sanitizeReplaceChar (c : Char) : GoStr :=
  if c = '&' then "-and-".data
  else if c = '+' then "-plus-".data
  else if c = '(' then []
  else if c = ')' then []
  else if c = '[' then []
  else if c = ']' then []
  else if c = cLbrace then []
  else if c = cRbrace then []
  else if c = cSquote then []
  else if c = cDquote then []
  else if c = ',' then []
  else if c = ';' then []
  else if c = '!' then []
  else if c = '@' then "-at-".data
  else if c = '#' then "-num-".data
  else if c = '$' then []
  else if c = '%' then "-pct-".data
  else if c = '^' then []
  else if c = '=' then "-eq-".data
  else if c = cBacktick then []
  else if c = '~' then []
  else [c]

/-- `filepath.Ext`: the suffix starting at the final dot, `""` when the
name has no dot. -/
def goExt (name : GoStr) : GoStr :=
  match goIndexOfSub name.reverse ['.'] with
  | none => []
  | some k => name.drop (name.length - (k + 1))

/-- `sanitizeName` (sanitize.go lines 114-165): strip a `.md` extension,
apply the replacer, collapse `--` runs, trim hyphens, re-append the
extension. -/
def sanitizeName (name : GoStr) : GoStr :=
  let isMd := goEndsWith (goToLower name) ".md".data
  let ext := if isMd then goExt name else []
  let base := if isMd then name.take (name.length - ext.length) else name
  let s := base.flatMap sanitizeReplaceChar
  let s := collapseHyphens s
  let s := goTrimChar '-' s
  s ++ ext

/-- The collection walk of `SanitizeSpecialCharacters` (sanitize.go lines
21-45): every directory whose name needs sanitizing, and every `.md`
file whose name needs sanitizing; non-`.md` files are skipped. -/
def sanitizeTargets (t : Fs) : List (List GoStr) :=
  (fsWalk t).filterMap (fun pi =>
    let name := pi.1.getLastD []
    if needsSanitizing name then
      if pi.2 then some pi.1
      else if goEndsWith (goToLower name) ".md".data then some pi.1
      else none
    else none)

/-- One action of `SanitizeSpecialCharacters` (sanitize.go lines 58-96):
skip vanished paths and unchanged names; if the sanitized name exists,
merge directories (removing the source on success) and skip files;
otherwise rename. -/
def sanitizeStep (t : Fs) (p : List GoStr) : Fs :=
  match getPath t p with
  | none => t
  | some e =>
    let oldName := p.getLastD []
    let newName := sanitizeName oldName
    if newName = oldName then t
    else
      let newPath := p.dropLast ++ [newName]
      match getPath t newPath with
      | some _ =>
        match e with
        | Fs.dir _ =>
          let r := mergeDirectoryContentsAt t p newPath
          if r.2 then removePath r.1 p else r.1
        | Fs.file _ => t
      | none => renameGo t p newPath

/-- `SanitizeSpecialCharacters` (sanitize.go lines 17-99). -/
def SanitizeSpecialCharacters (t : Fs) : Fs :=
  (sortByDepthDesc (sanitizeTargets t)).foldl sanitizeStep t

/-! ## Space before the extension, sanitize.go lines 394-488 -/

/-- `hasSpaceBeforeExtension` (sanitize.go lines 457-470). -/
def hasSpaceBeforeExtension (name : GoStr) : Bool :=
  [".md".data, ".MD".data, ".Md".data, ".mD".data].any (fun ext =>
    goEndsWith name ext &&
    goEndsWith (name.take (name.length - ext.length)) [' '])

/-- `removeSpaceBeforeExt` (sanitize.go lines 473-488): keep the final
three characters as the extension and trim trailing spaces of the base. -/
def removeSpaceBeforeExt (name : GoStr) : GoStr :=
  if ¬ goEndsWith (goToLower name) ".md".data then name
  else
    let ext := name.drop (name.length - 3)
    let base := name.take (name.length - 3)
    (base.reverse.dropWhile (· = ' ')).reverse ++ ext

/-- One rename of `RemoveSpaceBeforeExtension` (sanitize.go lines
426-451). -/
def rsbeStep (t : Fs) (p : List GoStr) : Fs :=
  match getPath t p with
  | none => t
  | some _ =>
    let oldName := p.getLastD []
    let newName := removeSpaceBeforeExt oldName
    if newName = oldName then t
    else
      let newPath := p.dropLast ++ [newName]
      match getPath t newPath with
      | some _ => t
      | none => renameGo t p newPath

/-- `RemoveSpaceBeforeExtension` (sanitize.go lines 394-454). -/
def RemoveSpaceBeforeExtension (t : Fs) : Fs :=
  (sortByDepthDesc ((fsFiles t).filterMap (fun pc =>
    if hasSpaceBeforeExtension (pc.1.getLastD []) then some pc.1
    else none))).foldl rsbeStep t

/-! ## Untitled placeholder pruning, sanitize.go lines 490-642 -/

/-- `isUntitledFile` (sanitize.go lines 614-642) on the lower-cased file
name: (is an untitled file, is the numbered form). -/
def isUntitledFile (lowerFileName : GoStr) : Bool × Bool :=
  if lowerFileName = "untitled.md".data then (true, false)
  else if ¬ goStartsWith lowerFileName "untitled ".data then (false, false)
  else if ¬ goEndsWith lowerFileName ".md".data then (false, false)
  else
    let middle := (lowerFileName.drop 9).take (lowerFileName.length - 12)
    if middle = [] then (false, false)
    else if middle.all (fun c => '0' ≤ c ∧ c ≤ '9') then (true, true)
    else (false, false)

/-- The parenthesis tail of `isUntitledContent` (sanitize.go lines
577-605): the first `)` must close a nonempty digit group opened at
index 1 and only whitespace may follow it. -/
def untitledParenTail (rest : GoStr) : Bool :=
  match goIndexOfSub rest [')'] with
  | none => false
  | some closeIdx =>
    if 2 < closeIdx then
      let between := (rest.drop 2).take (closeIdx - 2)
      if between ≠ [] ∧ between.all (fun c => '0' ≤ c ∧ c ≤ '9') then
        goTrimSpace (rest.drop (closeIdx + 1)) = []
      else false
    else false

/-- `isUntitledContent` (sanitize.go lines 561-608) on the trimmed
content: exactly `# untitled`, or `# untitled (N)` for digits `N` with
nothing meaningful after the parenthesis. -/
def isUntitledContent (trimmedContent : GoStr) : Bool :=
  if trimmedContent = "# untitled".data then true
  else if ¬ goStartsWith trimmedContent "# untitled".data then false
  else
    let rest := trimmedContent.drop 10
    if rest = [] then true
    else if rest.headD ' ' = ' ' ∧ 1 < rest.length ∧ rest.getD 1 ' ' = '('
    then untitledParenTail rest
    else false

/-- The removal decision of `RemoveUntitledFiles`'s walk body
(sanitize.go lines 505-538), taking the Go locals `lowerFileName` and
`trimmedContent`: numbered untitled files are removed when the content
merely starts with `# untitled`; plain `untitled.md` is removed when the
content is exactly a placeholder heading. -/
def shouldRemoveUntitled (lowerFileName trimmedContent : GoStr) : Bool :=
  let u := isUntitledFile lowerFileName
  if ¬ u.1 then false
  else if u.2 then goStartsWith trimmedContent "# untitled".data
  else isUntitledContent trimmedContent

/-- `RemoveUntitledFiles` (sanitize.go lines 494-557): collect matching
files over the walk, then remove them. -/
def RemoveUntitledFiles (t : Fs) : Fs :=
  ((fsFiles t).filterMap (fun pc =>
    if shouldRemoveUntitled (goToLower (pc.1.getLastD [])) (goTrimSpace pc.2)
    then some pc.1 else none)).foldl removePath t

/-! ## Empty directories, romanize.go lines 628-656 -/

/-- One visit of `CleanupEmptyDirs`: remove the directory when it is
empty at visit time. -/
def cleanupEmptyStep (t : Fs) (p : List GoStr) : Fs :=
  match getPath t p with
  | some (Fs.dir .nil) => removePath t p
  | _ => t

/-- `CleanupEmptyDirs` (romanize.go lines 628-656): one top-down pass
removing directories that are empty when visited. -/
def CleanupEmptyDirs (t : Fs) : Fs :=
  ((fsWalk t).filterMap (fun pi => if pi.2 then some pi.1 else none)).foldl
    cleanupEmptyStep t

/-! ## Folder folds, internal/postprocess/romanize.go -/

/-- `containsKorean` (romanize.go lines 428-436). -/
def containsKorean (s : GoStr) : Bool :=
  s.any (fun c =>
    (0xAC00 ≤ c.toNat && c.toNat ≤ 0xD7AF) ||
    (0x1100 ≤ c.toNat && c.toNat ≤ 0x11FF) ||
    (0x3130 ≤ c.toNat && c.toNat ≤ 0x318F))

/-- One directory of `MoveFilesIntoMatchingFolders` (romanize.go lines
259-293): when a sibling `.md` file shares the directory's base name,
first copy the sibling `files/` folder into the directory, then move the
file inside, skipping when the destination already exists. -/
def moveFilesStep (t : Fs) (dirPath : List GoStr) : Fs :=
  let dirName := dirPath.getLastD []
  let parent := dirPath.dropLast
  let mdName := dirName ++ ".md".data
  let matching := parent ++ [mdName]
  match getPath t matching with
  | none => t
  | some _ =>
    let newPath := dirPath ++ [mdName]
    match getPath t newPath with
    | some _ => t
    | none =>
      let srcFiles := parent ++ ["files".data]
      let t1 :=
        match getPath t srcFiles with
        | some (Fs.dir _) => copyFilesAt t srcFiles (dirPath ++ ["files".data])
        | _ => t
      renameGo t1 matching newPath

/-- `MoveFilesIntoMatchingFolders` (romanize.go lines 242-296): collect
every directory, then fold the moves. -/
def MoveFilesIntoMatchingFolders (t : Fs) : Fs :=
  ((fsWalk t).filterMap (fun pi => if pi.2 then some pi.1 else none)).foldl
    moveFilesStep t

/-- One Korean directory of `MergeKoreanFoldersIntoRomanized`
(romanize.go lines 381-421): when the transliterated name exists as a
sibling directory, merge into it and remove the source on success. -/
def mergeKoreanStep (t : Fs) (dirPath : List GoStr) : Fs :=
  let koreanName := dirPath.getLastD []
  if ¬ containsKorean koreanName then t
  else
    match getPath t dirPath with
    | none => t
    | some _ =>
      let romanizedName := Romanize koreanName
      let romanizedDir := dirPath.dropLast ++ [romanizedName]
      if romanizedDir = dirPath then t
      else
        match getPath t romanizedDir with
        | some (Fs.dir _) =>
          let r := mergeDirectoryContentsAt t dirPath romanizedDir
          if r.2 then removePath r.1 dirPath else r.1
        | _ => t

/-- `MergeKoreanFoldersIntoRomanized` (romanize.go lines 347-425): group
the walked directories by parent, process parents deepest first (Go
iterates a map and sorts with unstable `sort.Slice`; the theorems below
only use inputs where the tie order is irrelevant), and merge each
Korean-named directory into its transliterated sibling. -/
def MergeKoreanFoldersIntoRomanized (t : Fs) : Fs :=
  let dirs := (fsWalk t).filterMap (fun pi => if pi.2 then some pi.1 else none)
  let parents := (dirs.map (fun p => p.dropLast)).eraseDups
  (sortByDepthDesc parents).foldl (fun t par =>
    (dirs.filter (fun p => p.dropLast = par)).foldl mergeKoreanStep t) t

/-- One directory of `RenameRemainingKoreanFolders` (romanize.go lines
530-564): merge into an existing transliterated sibling, otherwise
rename. -/
def renameKoreanFolderStep (t : Fs) (dirPath : List GoStr) : Fs :=
  match getPath t dirPath with
  | none => t
  | some _ =>
    let romanizedName := Romanize (dirPath.getLastD [])
    let romanizedPath := dirPath.dropLast ++ [romanizedName]
    if romanizedPath = dirPath then t
    else
      match getPath t romanizedPath with
      | some _ =>
        let r := mergeDirectoryContentsAt t dirPath romanizedPath
        if r.2 then removePath r.1 dirPath else r.1
      | none => renameGo t dirPath romanizedPath

/-- `RenameRemainingKoreanFolders` (romanize.go lines 502-567): collect
Korean-named directories, deepest first, then merge or rename each. -/
def RenameRemainingKoreanFolders (t : Fs) : Fs :=
  (sortByDepthDesc ((fsWalk t).filterMap (fun pi =>
    if pi.2 ∧ containsKorean (pi.1.getLastD []) then some pi.1
    else none))).foldl renameKoreanFolderStep t

/-- One file of `RenameRemainingKoreanFiles` (romanize.go lines 592-622):
transliterate the base name (the `.md` suffix is stripped
case-sensitively) and rename unless the destination exists. -/
def renameKoreanFileStep (t : Fs) (p : List GoStr) : Fs :=
  match getPath t p with
  | none => t
  | some _ =>
    let fileName := p.getLastD []
    let base :=
      if goEndsWith fileName ".md".data then
        fileName.take (fileName.length - 3)
      else fileName
    let romanizedName := Romanize base ++ ".md".data
    if romanizedName = fileName then t
    else
      let romanizedPath := p.dropLast ++ [romanizedName]
      match getPath t romanizedPath with
      | some _ => t
      | none => renameGo t p romanizedPath

/-- `RenameRemainingKoreanFiles` (romanize.go lines 571-625): collect
`.md` files with Korean characters in their names (walk order), then
rename each. -/
def RenameRemainingKoreanFiles (t : Fs) : Fs :=
  ((fsFiles t).filterMap (fun pc =>
    let name := pc.1.getLastD []
    if goEndsWith (goToLower name) ".md".data ∧ containsKorean name then
      some pc.1
    else none)).foldl renameKoreanFileStep t

/-! ## Page metadata and the romanize/frontmatter pass -/

/-- `PageMeta` (romanize.go lines 15-25), restricted to the fields the
modelled passes read: title, hasChildren, filePath (empty = none),
children. -/
inductive Page where
  | mk : GoStr → Bool → GoStr → List Page → Page

/-- The page title. -/
def Page.title : Page → GoStr
  | .mk t _ _ _ => t

/-- The `hasChildren` flag. -/
def Page.hasKids : Page → Bool
  | .mk _ h _ _ => h

/-- The `filePath` field, `[]` when absent. -/
def Page.filePath : Page → GoStr
  | .mk _ _ f _ => f

/-- The children list. -/
def Page.children : Page → List Page
  | .mk _ _ _ cs => cs

/-- `romanizePath` (romanize.go lines 189-211): transliterate each `/`
segment, keeping a case-sensitive `.md` suffix, and clean up hyphens. -/
def romanizePath (path : GoStr) : GoStr :=
  goJoin "/".data ((goSplitOnChar '/' path).map (fun part =>
    if goEndsWith part ".md".data then
      cleanupHyphens (Romanize (part.take (part.length - 3))) ++ ".md".data
    else cleanupHyphens (Romanize part)))

/-- Decimal digits of a sidebar position. -/
def natDigits (n : Nat) : GoStr := (toString n).data

/-- `addFrontmatter` (romanize.go lines 225-237): prepend a
`title`/`sidebar_position` header unless the trimmed content already
starts with `---`. -/
def addFrontmatter (content title : GoStr) (pos : Nat) : GoStr :=
  let title :=
    if goEndsWith title ".md".data then title.take (title.length - 3)
    else title
  if goStartsWith (goTrimSpace content) "---".data then content
  else
    "---\ntitle: ".data ++ title ++ "\nsidebar_position: ".data ++
    natDigits pos ++ "\n---\n\n".data ++ content

mutual

/-- `processPage` (romanize.go lines 78-186): rename the page's file to
its transliterated path, add frontmatter to `.md` files, copy a
referenced sibling `files/` folder when the file moved directories,
remove the original, then recurse into the children (skipped entirely
when the page's file is missing, as the Go function returns early). -/
def processPage (t : Fs) (pg : Page) (pos : Nat) : Fs :=
  match pg with
  | .mk title hasKids filePath children =>
    if filePath = [] then
      if hasKids && !children.isEmpty then processChildren t children 1
      else t
    else
      let origPath := goSplitOnChar '/' filePath
      match getPath t origPath with
      | none => t
      | some orig =>
        let romanizedPath := goSplitOnChar '/' (romanizePath filePath)
        let t1 := mkdirAll t romanizedPath.dropLast
        match orig with
        | Fs.dir _ => t1
        | Fs.file content =>
          let newContent :=
            if goEndsWith filePath ".md".data then
              addFrontmatter content title pos
            else content
          let t2 := setPath t1 romanizedPath (Fs.file newContent)
          let t3 :=
            if origPath.dropLast ≠ romanizedPath.dropLast ∧
                goContainsSub newContent "](files/".data then
              match getPath t2 (origPath.dropLast ++ ["files".data]) with
              | some (Fs.dir _) =>
                copyFilesAt t2 (origPath.dropLast ++ ["files".data])
                  (romanizedPath.dropLast ++ ["files".data])
              | _ => t2
            else t2
          let t4 :=
            if origPath ≠ romanizedPath then removePath t3 origPath else t3
          if hasKids && !children.isEmpty then processChildren t4 children 1
          else t4

/-- The children loops of `RomanizeSpace`/`processPage`, with 1-based
sidebar positions. -/
def processChildren (t : Fs) (ps : List Page) (i : Nat) : Fs :=
  match ps with
  | [] => t
  | p :: rest => processChildren (processPage t p i) rest (i + 1)

end

/-- `RomanizeSpace` (romanize.go lines 48-75).  The pass reads the page
tree back from `_metadata.json`; the parsed tree is passed in directly
(JSON round-tripping is not modelled). -/
def RomanizeSpace (pages : List Page) (t : Fs) : Fs :=
  processChildren t pages 1

/-! ## Slash-split merging, sanitize.go lines 167-389 -/

/-- `cleanupEmptyParentDirs` (sanitize.go lines 369-389): remove empty
directories walking up from the given path, stopping at the space root
or at the first non-empty (or unreadable) directory.  The fuel is the
path length, exactly the number of steps the Go loop can take. -/
def cleanupEmptyParentsAux : Nat → Fs → List GoStr → Fs
  | 0, t, _ => t
  | fuel + 1, t, p =>
    match p with
    | [] => t
    | _ :: _ =>
      match getPath t p with
      | some (Fs.dir .nil) =>
        cleanupEmptyParentsAux fuel (removePath t p) p.dropLast
      | _ => t

/-- `cleanupEmptyParentDirs` (sanitize.go lines 369-389). -/
def cleanupEmptyParents (t : Fs) (p : List GoStr) : Fs :=
  cleanupEmptyParentsAux p.length t p

/-- The per-title data of `mergeSlashSplitFile`: the directory name the
first title segment produced, the relative path of the wrongly nested
file below it, and the merged file name. -/
structure MsCfg where
  wrongDirName : GoStr
  wrongRel : List GoStr
  correctFileName : GoStr

/-- The `filepath.Walk` body of `mergeSlashSplitFile` (sanitize.go lines
308-365), traversing the directory structure as it was when the walk
read each listing: at every directory named `wrongDirName` holding the
wrongly nested file, write the merged file next to the directory (unless
it already exists), delete the nested file, prune now-empty ancestors,
and skip the directory's contents (`filepath.SkipDir`); in every other
case descend. -/
def msVisit (cfg : MsCfg) : Ents → List GoStr → Fs → Fs
  | .nil, _, cur => cur
  | .cons _ (Fs.file _) rest, pfx, cur => msVisit cfg rest pfx cur
  | .cons n (Fs.dir sub) rest, pfx, cur =>
    let p := pfx ++ [n]
    if n = cfg.wrongDirName then
      match getPath cur (p ++ cfg.wrongRel) with
      | some (Fs.file content) =>
        if (getPath cur (pfx ++ [cfg.correctFileName])).isSome then
          msVisit cfg rest pfx (msVisit cfg sub p cur)
        else
          let cur1 := setPath cur (pfx ++ [cfg.correctFileName])
            (Fs.file content)
          let cur2 := removePath cur1 (p ++ cfg.wrongRel)
          let cur3 := cleanupEmptyParents cur2 p
          msVisit cfg rest pfx cur3
      | _ => msVisit cfg rest pfx (msVisit cfg sub p cur)
    else msVisit cfg rest pfx (msVisit cfg sub p cur)

/-- The per-segment processing of `mergeSlashSplitFile` (sanitize.go
lines 246-261 and 280-295): trim the segment; in the transliterated run
also romanize it, collapse `--` runs and trim hyphens. -/
def msProcessedPart (romanized : Bool) (part : GoStr) : GoStr :=
  let part := goTrimSpace part
  if romanized then goTrimChar '-' (collapseHyphens (Romanize part))
  else part

/-- `mergeSlashSplitFile` (sanitize.go lines 233-366) for one page title:
build the wrong path (first segments as directories, last as `.md`
file), the merged name (segments joined with `-` in the transliterated
run, concatenated directly in the original-name run), and walk the tree.
The space root itself is walked too in Go, but its name is the space
directory's on-disk name, which is not a trimmed title segment for the
trees considered here. -/
def mergeSlashSplitFile (t : Fs) (title : GoStr) (romanized : Bool) : Fs :=
  let titleParts := goSplitOnChar '/' title
  if titleParts.length < 2 then t
  else
    let processed := titleParts.map (msProcessedPart romanized)
    let wrongPathParts :=
      processed.dropLast ++ [processed.getLastD [] ++ ".md".data]
    let correctFileName :=
      (if romanized then goJoin "-".data processed else goJoin [] processed)
        ++ ".md".data
    let cfg : MsCfg :=
      { wrongDirName := wrongPathParts.headD []
        wrongRel := wrongPathParts.tail
        correctFileName := correctFileName }
    match t with
    | Fs.file _ => t
    | Fs.dir es => msVisit cfg es [] t

mutual

/-- `findPagesWithSlashInTitle` (sanitize.go lines 216-229). -/
def findPagesWithSlash : List Page → List Page
  | [] => []
  | pg :: rest => findPagesWithSlashOne pg ++ findPagesWithSlash rest

/-- The per-page body of `findPagesWithSlashInTitle`: the page itself
when its title holds a `/`, then its descendants. -/
def findPagesWithSlashOne : Page → List Page
  | Page.mk title hasKids fp children =>
    (if title.contains '/' then [Page.mk title hasKids fp children]
    else []) ++
    (if hasKids && !children.isEmpty then findPagesWithSlash children
    else [])

end

/-- `MergeSlashSplitFiles` (sanitize.go lines 186-213): for every page
whose title contains `/`, run the original-name merge and then the
transliterated merge.  The page tree stands for the parsed
`_metadata.json`. -/
def MergeSlashSplitFiles (pages : List Page) (t : Fs) : Fs :=
  (findPagesWithSlash pages).foldl (fun t pg =>
    mergeSlashSplitFile (mergeSlashSplitFile t pg.title false) pg.title true) t

/-! ## Passes called by runSync whose source is not in the snapshot -/

mutual

/-- All non-empty `filePath` references of a page tree. -/
def pageFilePaths : List Page → List GoStr
  | [] => []
  | pg :: rest => pageFilePathsOne pg ++ pageFilePaths rest

/-- The `filePath` references of one page and its descendants. -/
def pageFilePathsOne : Page → List GoStr
  | Page.mk _ _ fp children =>
    (if fp.isEmpty then [] else [fp]) ++ pageFilePaths children

end

/-- Modelled from the spec: `postprocess.RemoveOrphanedFiles` is called
by `runSync` (part_000 line 226) but its definition is not in the
repository snapshot.  Spec: "Remove orphaned files not in
`_metadata.json`"; untracked files are "never deleted except when
explicitly unreferenced by metadata" (§1).  Modelled as removing every
`.md` document file whose space-relative path is not the `filePath` of
any metadata page; attachments and the metadata document itself are not
document files and are kept. -/
def RemoveOrphanedFiles (pages : List Page) (t : Fs) : Fs :=
  let refs := (pageFilePaths pages).map (goSplitOnChar '/')
  ((fsFiles t).filterMap (fun pc =>
    if goEndsWith (goToLower (pc.1.getLastD [])) ".md".data &&
        !refs.contains pc.1 then
      some pc.1
    else none)).foldl removePath t

/-- Modelled from the spec: the tree half of `postprocess.FixSlashInTitles`,
called by `runSync` (part_000 line 220) but absent from the snapshot.
Spec §4.2 pass 3: for every metadata title containing a path separator,
locate the nested structure the separator produced, merge it into one
file named by joining the title segments, delete the spurious chain and
prune empty ancestors.  The walk-and-merge machinery of
`mergeSlashSplitFile` is reused with the segments joined by `-` (the
joined-name convention of spec §8 property 3). -/
def fixSlashMergeOne (t : Fs) (title : GoStr) : Fs :=
  let titleParts := goSplitOnChar '/' title
  if titleParts.length < 2 then t
  else
    let processed := titleParts.map goTrimSpace
    let wrongPathParts :=
      processed.dropLast ++ [processed.getLastD [] ++ ".md".data]
    let cfg : MsCfg :=
      { wrongDirName := wrongPathParts.headD []
        wrongRel := wrongPathParts.tail
        correctFileName := goJoin "-".data processed ++ ".md".data }
    match t with
    | Fs.file _ => t
    | Fs.dir es => msVisit cfg es [] t

mutual

/-- Modelled from the spec: the title rewrite of `FixSlashInTitles`
(`runSync` logs "Fixing slash-split files and titles"): separators in
the titles are replaced by the join character. -/
def fixSlashTitle : Page → Page
  | Page.mk title hasKids fp children =>
    Page.mk (title.map (fun c => if c = '/' then '-' else c)) hasKids fp
      (fixSlashTitles children)

/-- `fixSlashTitle` over a list of pages. -/
def fixSlashTitles : List Page → List Page
  | [] => []
  | p :: rest => fixSlashTitle p :: fixSlashTitles rest

end

/-- Modelled from the spec: `postprocess.FixSlashInTitles` (part_000
line 220), merging slash-split structures and updating the metadata
titles. -/
def FixSlashInTitles (pages : List Page) (t : Fs) : List Page × Fs :=
  (fixSlashTitles pages,
   (findPagesWithSlash pages).foldl (fun t pg => fixSlashMergeOne t pg.title) t)

/-! ## Content escaping, internal/postprocess/placeholder.go -/

/-- Indexing into a content string; the Go loops index bytes, which on
the ASCII contents of the theorems below coincide with scalars. -/
def gAt (s : GoStr) (i : Nat) : Char := s.getD i (Char.ofNat 0)

/-- The inner scan of `wrapPlaceholders` (placeholder.go lines 352-355),
counting the steps taken: `j` advances from its start by this many
positions before hitting a closing brace, a newline, or the end.  The
fuel is the remaining length, exactly bounding the scan. -/
def wpScanStepsAux (s : GoStr) : Nat → Nat → Nat
  | 0, _ => 0
  | fuel + 1, j =>
    if j < s.length then
      if gAt s j = cRbrace ∨ gAt s j = '\n' then 0
      else 1 + wpScanStepsAux s fuel (j + 1)
    else 0

/-- The scan of placeholder.go lines 352-355 from position `j`. -/
def wpScanSteps (s : GoStr) (j : Nat) : Nat :=
  wpScanStepsAux s (s.length - j) j

/-- The backwards space/tab skip of the JSON-pattern check
(placeholder.go lines 374-390): the first index at or below `k` holding
something other than a space or tab; `none` when only spaces remain. -/
def wpBackSkip (s : GoStr) : Nat → Option Nat
  | 0 => if gAt s 0 = ' ' ∨ gAt s 0 = '\t' then none else some 0
  | k + 1 =>
    if gAt s (k + 1) = ' ' ∨ gAt s (k + 1) = '\t' then wpBackSkip s k
    else some (k + 1)

/-- The JSON-like-pattern test of `wrapPlaceholders` (placeholder.go
lines 372-391): looking back from the brace, optional spaces, a colon,
optional spaces, then a quote. -/
def wpIsJSON (s : GoStr) (i : Nat) : Bool :=
  if i = 0 then false
  else
    match wpBackSkip s (i - 1) with
    | none => false
    | some k =>
      if gAt s k = ':' then
        if k = 0 then false
        else
          match wpBackSkip s (k - 1) with
          | none => false
          | some k2 => gAt s k2 = cDquote ∨ gAt s k2 = cSquote
      else false

/-- The scan loop of `wrapPlaceholders` (placeholder.go lines 282-412),
with the code-block, inline-code and link-path states.  Every iteration
advances `i` by at least one, so a fuel of the string's length bounds
the loop; the fuel only makes the termination evident. -/
def wpAux (s : GoStr) : Nat → Nat → Bool → Bool → Bool → GoStr
  | 0, _, _, _, _ => []
  | fuel + 1, i, inCB, inIC, inLP =>
    if i < s.length then
      if i + 2 < s.length ∧ gAt s i = cBacktick ∧
          gAt s (i + 1) = cBacktick ∧ gAt s (i + 2) = cBacktick then
        [cBacktick, cBacktick, cBacktick] ++
          wpAux s fuel (i + 3) (!inCB) inIC inLP
      else if inCB then gAt s i :: wpAux s fuel (i + 1) inCB inIC inLP
      else if gAt s i = cBacktick then
        cBacktick :: wpAux s fuel (i + 1) inCB (!inIC) inLP
      else if inIC then gAt s i :: wpAux s fuel (i + 1) inCB inIC inLP
      else if i + 1 < s.length ∧ gAt s i = ']' ∧ gAt s (i + 1) = '(' then
        [']', '('] ++ wpAux s fuel (i + 2) inCB inIC true
      else if inLP ∧ gAt s i = ')' then
        ')' :: wpAux s fuel (i + 1) inCB inIC false
      else if inLP ∧ gAt s i = '\n' then
        '\n' :: wpAux s fuel (i + 1) inCB inIC false
      else if inLP then gAt s i :: wpAux s fuel (i + 1) inCB inIC inLP
      else if gAt s i = cLbrace then
        let j := i + 1 + wpScanSteps s (i + 1)
        if j < s.length ∧ gAt s j = cRbrace then
          let placeholder := (s.drop i).take (j + 1 - i)
          let wrapped := 0 < i ∧ gAt s (i - 1) = cBacktick ∧
            j + 1 < s.length ∧ gAt s (j + 1) = cBacktick
          if wrapped ∨ wpIsJSON s i then
            placeholder ++ wpAux s fuel (j + 1) inCB inIC inLP
          else
            cBacktick :: placeholder ++ cBacktick ::
              wpAux s fuel (j + 1) inCB inIC inLP
        else gAt s i :: wpAux s fuel (i + 1) inCB inIC inLP
      else gAt s i :: wpAux s fuel (i + 1) inCB inIC inLP
    else []

/-- `wrapPlaceholders` (placeholder.go lines 282-412). -/
def wrapPlaceholders (s : GoStr) : GoStr := wpAux s s.length 0 false false false

/-- The scan loop of `wrapAngleBrackets` (placeholder.go lines 87-163),
fueled like `wpAux`. -/
def waAux (s : GoStr) : Nat → Nat → Bool → Bool → GoStr
  | 0, _, _, _ => []
  | fuel + 1, i, inCB, inIC =>
    if i < s.length then
      if i + 2 < s.length ∧ gAt s i = cBacktick ∧
          gAt s (i + 1) = cBacktick ∧ gAt s (i + 2) = cBacktick then
        [cBacktick, cBacktick, cBacktick] ++ waAux s fuel (i + 3) (!inCB) inIC
      else if ¬ inCB ∧ gAt s i = cBacktick then
        cBacktick :: waAux s fuel (i + 1) inCB (!inIC)
      else if inCB ∨ inIC then gAt s i :: waAux s fuel (i + 1) inCB inIC
      else if gAt s i = '<' then
        if i + 2 < s.length ∧ gAt s (i + 1) = '/' ∧ gAt s (i + 2) = '>' then
          if 0 < i ∧ gAt s (i - 1) = cBacktick ∧ i + 3 < s.length ∧
              gAt s (i + 3) = cBacktick then
            ['<', '/', '>'] ++ waAux s fuel (i + 3) inCB inIC
          else
            [cBacktick, '<', '/', '>', cBacktick] ++
              waAux s fuel (i + 3) inCB inIC
        else if i + 1 < s.length ∧ gAt s (i + 1) = '>' then
          if 0 < i ∧ gAt s (i - 1) = cBacktick ∧ i + 2 < s.length ∧
              gAt s (i + 2) = cBacktick then
            ['<', '>'] ++ waAux s fuel (i + 2) inCB inIC
          else [cBacktick, '<', '>', cBacktick] ++ waAux s fuel (i + 2) inCB inIC
        else gAt s i :: waAux s fuel (i + 1) inCB inIC
      else gAt s i :: waAux s fuel (i + 1) inCB inIC
    else []

/-- `wrapAngleBrackets` (placeholder.go lines 87-163). -/
def wrapAngleBrackets (s : GoStr) : GoStr := waAux s s.length 0 false false

/-- The raw-HTML line test of `wrapRawHTML` (placeholder.go lines
212-222). -/
def isHTMLLine (line : GoStr) : Bool :=
  ["<table".data, "<tbody".data, "<thead".data, "<tr>".data, "<th".data,
   "<td".data, "</table>".data, "</tbody>".data, "</thead>".data,
   "</tr>".data, "</th>".data, "</td>".data].any
    (goContainsSub (goToLower (goTrimSpace line)))

/-- The line loop of `wrapRawHTML` (placeholder.go lines 224-271):
`buf`/`bufOpen` mirror `htmlLines` and `htmlStartIdx >= 0`. -/
def wrhAux : List GoStr → Bool → List GoStr → Bool → List GoStr
  | [], _, buf, bufOpen =>
    if bufOpen then "```html".data :: buf ++ ["```".data] else []
  | line :: rest, inCB, buf, bufOpen =>
    if goStartsWith (goTrimSpace line) "```".data then
      (if bufOpen then "```html".data :: buf ++ ["```".data] else []) ++
        line :: wrhAux rest (!inCB) [] false
    else if inCB then line :: wrhAux rest inCB buf bufOpen
    else if isHTMLLine line then wrhAux rest inCB (buf ++ [line]) true
    else
      (if bufOpen then "```html".data :: buf ++ ["```".data] else []) ++
        line :: wrhAux rest inCB [] false

/-- `wrapRawHTML` (placeholder.go lines 204-274). -/
def wrapRawHTML (s : GoStr) : GoStr :=
  goJoin "\n".data (wrhAux (goSplitOnChar '\n' s) false [] false)

/-- The shared shape of the three `.md`-content passes
(`WrapPlaceholdersWithBackticks`, `WrapAngleBracketsWithBackticks`,
`WrapRawHTMLWithCodeBlock`, placeholder.go lines 13-82 and 167-199):
rewrite every `.md` file's content in place. -/
def wrapPassWith (f : GoStr → GoStr) (t : Fs) : Fs :=
  (fsFiles t).foldl (fun t pc =>
    if goEndsWith (goToLower (pc.1.getLastD [])) ".md".data then
      setPath t pc.1 (Fs.file (f pc.2))
    else t) t

/-! ## The reconciliation pipeline of runSync (part_000 lines 218-324) -/

/-- The post-processing pass sequence `runSync` applies to one space's
temp tree (part_000 lines 218-324), with the parsed `_metadata.json`
passed alongside the tree (the metadata-reading passes re-read the file
each time; its parsed form is threaded directly, JSON serialization is
not modelled).  `RomanizeSpace` failures abort the tail of the sequence
in Go; the model takes the success path. -/
def runSyncPasses (pages : List Page) (t : Fs) : List Page × Fs :=
  let pt := FixSlashInTitles pages t
  let pages := pt.1
  let t := RemoveOrphanedFiles pages pt.2
  let t := wrapPassWith wrapPlaceholders t
  let t := wrapPassWith wrapAngleBrackets t
  let t := wrapPassWith wrapRawHTML t
  let t := MergeSlashSplitFiles pages t
  let t := RomanizeSpace pages t
  let t := MoveFilesIntoMatchingFolders t
  let t := MergeKoreanFoldersIntoRomanized t
  let t := RenameRemainingKoreanFolders t
  let t := RenameRemainingKoreanFiles t
  let t := SanitizeSpecialCharacters t
  let t := RemoveSpaceBeforeExtension t
  let t := MoveFilesIntoMatchingFolders t
  let t := MergeSlashSplitFiles pages t
  let t := CleanupEmptyDirs t
  (pages, t)

/-- The contents of a file of the tree, `none` for directories and
missing paths. -/
def fileAt (t : Fs) (p : List GoStr) : Option GoStr :=
  match getPath t p with
  | some (Fs.file c) => some c
  | _ => none

/-! ## The atomic publish protocol, part_000 lines 367-402 -/

/-- The three publish slots of one space (part_000 lines 156-158):
`final` (the published tree), `temp` (the built tree), `old` (the
transient holding slot), each `none` when the directory is absent. -/
structure Slots where
  final : Option Fs
  temp : Option Fs
  old : Option Fs

/-- Fault injection for `atomicSwap`: whether each filesystem operation
fails when attempted. -/
structure SwapFaults where
  removeOldFails : Bool
  renameFinalToOldFails : Bool
  renameTempToFinalFails : Bool
  renameOldToFinalFails : Bool
  removeOldCleanupFails : Bool

/-- The error outcomes of `atomicSwap`. -/
inductive SwapErr where
  | removeOld
  | renameFinalToOld
  | renameTempToFinal (rollbackAlsoFailed : Bool)

/-- `atomicSwap` (part_000 lines 367-402): delete a stale `old`, rename
`final → old` when `final` exists, rename `temp → final` — on failure
attempt the `old → final` rollback and report (both failures when the
rollback also fails) — then delete `old`, whose failure is only a
warning. -/
def atomicSwap (s : Slots) (f : SwapFaults) : Slots × Option SwapErr :=
  let s1 :=
    if s.old.isSome then
      if f.removeOldFails then none
      else some { s with old := none }
    else some s
  match s1 with
  | none => (s, some SwapErr.removeOld)
  | some s1 =>
    let s2 :=
      match s1.final with
      | some fin =>
        if f.renameFinalToOldFails then none
        else some { s1 with final := none, old := some fin }
      | none => some s1
    match s2 with
    | none => (s1, some SwapErr.renameFinalToOld)
    | some s2 =>
      if f.renameTempToFinalFails then
        match s2.old with
        | some o =>
          if f.renameOldToFinalFails then
            (s2, some (SwapErr.renameTempToFinal true))
          else
            ({ s2 with final := some o, old := none },
             some (SwapErr.renameTempToFinal false))
        | none => (s2, some (SwapErr.renameTempToFinal false))
      else
        let s3 := { s2 with final := s2.temp, temp := none }
        if s3.old.isSome then
          if f.removeOldCleanupFails then (s3, none)
          else ({ s3 with old := none }, none)
        else (s3, none)

/-! ## The build phase of runSync (part_000 lines 160-190) -/

/-- `cleanupTempDir` (part_000 lines 406-412): delete the temp directory
if it exists. -/
def cleanupTempDir (temp : Option Fs) : Option Fs :=
  match temp with
  | some _ => none
  | none => none

/-- `os.WriteFile` after `os.MkdirAll(filepath.Dir(path))`, the
per-file write of the build loop (part_000 lines 173-190). -/
def writeFileMk (t : Fs) (p : List GoStr) (c : GoStr) : Fs :=
  setPath (mkdirAll t p.dropLast) p (Fs.file c)

/-- The build phase for one space (part_000 lines 160-190): clean up any
stale temp tree, create the temp directory fresh, then write every
snapshot file into it (`exported.Files` iterates in some order; the
model takes the write sequence as a list). -/
def buildPhase (staleTemp : Option Fs) (files : List (List GoStr × GoStr)) :
    Fs :=
  let cleaned := cleanupTempDir staleTemp
  let fresh :=
    match cleaned with
    | some t => t
    | none => Fs.dir .nil
  files.foldl (fun t pc => writeFileMk t pc.1 pc.2) fresh

/-! ## The scheduler's running flag, config.go lines 183-215 -/

/-- The scheduler state visible to `runSyncSafe`: the mutex-guarded
`isRunning` flag and counters of begun and finished sync invocations
(the skip counter records skipped attempts; it influences nothing). -/
structure SchedState where
  running : Bool
  started : Nat
  finished : Nat
  skipped : Nat

/-- The initial scheduler state (`NewScheduler`). -/
def schedInit : SchedState :=
  { running := false, started := 0, finished := 0, skipped := 0 }

/-- The observable events of `runSyncSafe` (config.go lines 183-215):
an attempt (the mutex-guarded test-and-set of `isRunning`; if the flag
is held the attempt is skipped, otherwise the sync function is invoked),
and the completion of an in-flight run (the deferred reset). -/
inductive SchedEvent where
  | attempt
  | finish

/-- One scheduler transition. -/
def schedStep (s : SchedState) : SchedEvent → SchedState
  | SchedEvent.attempt =>
    if s.running then { s with skipped := s.skipped + 1 }
    else { s with running := true, started := s.started + 1 }
  | SchedEvent.finish =>
    if s.running then
      { s with running := false, finished := s.finished + 1 }
    else s

/-- A trace of scheduler events. -/
def schedRun (s : SchedState) (tr : List SchedEvent) : SchedState :=
  tr.foldl schedStep s

/-- Runs in flight: begun but not finished. -/
def inFlight (s : SchedState) : Nat := s.started - s.finished

/-! ## Concrete inputs used by the counterexample/evaluation theorems -/

/-- Strip a prefix: `some` of the remainder when the pattern leads. -/
def goStripStart : GoStr → GoStr → Option GoStr
  | [], s => some s
  | _ :: _, [] => none
  | p :: ps, c :: s => if c = p then goStripStart ps s else none

/-- Strip a suffix: `some` of the front when the pattern trails. -/
def goStripEnd (pat s : GoStr) : Option GoStr :=
  if goEndsWith s pat then some (s.take (s.length - pat.length)) else none

/-- The deletion criterion exactly as claim C8 words it: the file name is
`untitled.md` or `untitled N.md` for digits `N`, and the trimmed content
is exactly `# untitled` or `# untitled (N)` with no further content. -/
def claimedUntitledRemoval (lowerFileName trimmedContent : GoStr) : Bool :=
  (lowerFileName = "untitled.md".data ||
    (match goStripStart "untitled ".data lowerFileName with
     | some r =>
       match goStripEnd ".md".data r with
       | some ds => !ds.isEmpty && ds.all (fun c => '0' ≤ c ∧ c ≤ '9')
       | none => false
     | none => false)) &&
  (trimmedContent = "# untitled".data ||
    (match goStripStart "# untitled (".data trimmedContent with
     | some r =>
       !r.isEmpty && r.getLastD ' ' = ')' &&
       !r.dropLast.isEmpty && r.dropLast.all (fun c => '0' ≤ c ∧ c ≤ '9')
     | none => false))

/-- The name half of the amended C8 criterion: `untitled.md`, or
`untitled N.md` for a non-empty digit string `N`. -/
def amendedUntitledName (lowerFileName : GoStr) : Bool :=
  lowerFileName = "untitled.md".data ||
    (match goStripStart "untitled ".data lowerFileName with
     | some r =>
       match goStripEnd ".md".data r with
       | some ds => !ds.isEmpty && ds.all (fun c => '0' ≤ c ∧ c ≤ '9')
       | none => false
     | none => false)

/-- The `# untitled (N)` shape as the claim words it: the strip of the
heading-and-parenthesis prefix is a nonempty digit group closed by a
final `)`. -/
def amendedUntitledParen (trimmedContent : GoStr) : Bool :=
  match goStripStart "# untitled (".data trimmedContent with
  | some r =>
    !r.isEmpty && r.getLastD ' ' = ')' &&
    !r.dropLast.isEmpty && r.dropLast.all (fun c => '0' ≤ c ∧ c ≤ '9')
  | none => false

/-- The amended C8 deletion criterion: a plain `untitled.md` is deleted
exactly when its trimmed content is the bare heading or `# untitled (N)`
for digits `N`; a numbered `untitled N.md` is deleted as soon as its
trimmed content starts with `# untitled`. -/
def amendedUntitledRemoval (lowerFileName trimmedContent : GoStr) : Bool :=
  if lowerFileName = "untitled.md".data then
    trimmedContent = "# untitled".data || amendedUntitledParen trimmedContent
  else if amendedUntitledName lowerFileName then
    goStartsWith trimmedContent "# untitled".data
  else false

/-- The pages of the pipeline evaluation input: one page titled with a
brace placeholder, exported to `T x.md`. -/
def evalPages : List Page := [Page.mk "T \x7bx\x7d".data false "T x.md".data []]

/-- The pipeline evaluation working tree: the exported document and the
metadata file. -/
def evalTree : Fs := Fs.dir (entsOf
  [("T x.md".data, Fs.file "hello\n".data),
   ("_metadata.json".data, Fs.file "M".data)])

/-- The tree the first pipeline run produces on `evalTree`: the romanize
pass has prepended the frontmatter with the raw brace title. -/
def evalTreeRun1 : Fs := Fs.dir (entsOf
  [("T x.md".data,
    Fs.file "---\ntitle: T \x7bx\x7d\nsidebar_position: 1\n---\n\nhello\n".data),
   ("_metadata.json".data, Fs.file "M".data)])

/-- The metadata of the slash-title scenario: one page titled `A/B`. -/
def slashPages : List Page := [Page.mk "A/B".data false [] []]

/-- The slash-title scenario tree: directory `A/` holding `B.md` with
content `X`. -/
def slashTree (content : GoStr) : Fs :=
  Fs.dir (entsOf [("A".data, Fs.dir (entsOf [("B.md".data, Fs.file content)]))])

/-- The sanitize counterexample tree: a directory whose sanitized name
collides with an existing sibling, both holding a same-named
attachment. -/
def sanitizeClashTree : Fs := Fs.dir (entsOf
  [("assets(v1)".data, Fs.dir (entsOf [("x.png".data, Fs.file "S".data)])),
   ("assetsv1".data, Fs.dir (entsOf [("x.png".data, Fs.file "D".data)]))])

/-- The untitled-pruning counterexample tree: a numbered untitled file
whose content continues after the placeholder heading. -/
def untitledExtraTree : Fs := Fs.dir (entsOf
  [("untitled 2.md".data, Fs.file "# untitled extra\n".data)])

/-- A stale temp tree used to exercise the crash-recovery build phase. -/
def staleDemoTree : Fs := Fs.dir (entsOf
  [("leftover.md".data, Fs.file "stale".data),
   ("junk".data, Fs.dir (entsOf [("old.png".data, Fs.file "img".data)]))])

/-- A snapshot file list used to exercise the build phase. -/
def demoFiles : List (List GoStr × GoStr) :=
  [(["a.md".data], "A".data), (["sub".data, "b.md".data], "B".data)]

/-- The destination-wins example listings: both sides hold `x.png`. -/
def mergeSrcDemo : Ents := entsOf [("x.png".data, Fs.file "S".data)]

/-- The destination listing of the destination-wins example. -/
def mergeDstDemo : Ents := entsOf [("x.png".data, Fs.file "D".data)]

/-! # Theorems -/

/-- Bounds of the syllable offset arithmetic: the lead index stays below
the 19-entry table. -/
theorem syllable_lead_lt (o : Nat) (h : o ≤ 11171) : o / 588 < 19 :=
  Nat.div_lt_of_lt_mul (by omega)

/-- Claim C6: a scalar that is not an ASCII letter, digit or space, not a
Hangul syllable, not in the deletion set and not in the substitution map
is emitted unchanged by the transliteration (e.g. Japanese and Chinese
characters pass through as-is). -/
theorem romanize_passthrough (c : Char)
    (h1 : isASCIIAlphanumOrSpace c = false)
    (h2 : isHangulScalar c.toNat = false)
    (h3 : charactersToRemove c = false)
    (h4 : specialCharReplacements c = none) :
    romanizeChar c = [c] ∧ ∀ s : GoStr, Romanize (c :: s) = c :: Romanize s := by
  have hchar : romanizeChar c = [c] := by
    simp [romanizeChar, h1, h2, h3, h4]
  refine ⟨hchar, fun s => ?_⟩
  simp [Romanize, List.flatMap_cons, hchar]

/-- Witness for C6 at the hiragana scalar こ (U+3053). -/
theorem romanize_passthrough_witness : romanizeChar 'こ' = ['こ'] :=
  (romanize_passthrough 'こ' (by decide) (by decide) (by decide)
    (by decide)).1


theorem Romanize_tables_and_examples :
    Romanize "하이".data = "hai".data ∧
    Romanize "안녕".data = "annyeong".data ∧
    Romanize "Google".data = "Google".data ∧
    Romanize "123".data = "123".data ∧
    (∀ c : Char, isHangulScalar c.toNat = true →
      romanizeChar c =
        initials.getD ((c.toNat - 0xAC00) / 588) [] ++
        medials.getD ((c.toNat - 0xAC00) % 588 / 28) [] ++
        (if (c.toNat - 0xAC00) % 28 = 0 then []
        else finals.getD ((c.toNat - 0xAC00) % 28) [])) ∧
    (∀ c : Char,
      (('a' ≤ c ∧ c ≤ 'z') ∨ ('A' ≤ c ∧ c ≤ 'Z') ∨ ('0' ≤ c ∧ c ≤ '9')) →
      romanizeChar c = [c] ∧ Romanize [c] = [c]) := by
  refine ⟨by decide, by decide, by decide, by decide, fun c h => ?_,
    fun c h => ?_⟩
  · have hb : 0xAC00 ≤ c.toNat ∧ c.toNat ≤ 0xD7A3 := by
      simpa [isHangulScalar] using h
    have hI : (c.toNat - 0xAC00) / 588 < 19 :=
      Nat.div_lt_of_lt_mul (by omega)
    have hM : (c.toNat - 0xAC00) % 588 / 28 < 21 :=
      Nat.div_lt_of_lt_mul (Nat.lt_of_lt_of_le (Nat.mod_lt _ (by omega))
        (by omega))
    have hF : (c.toNat - 0xAC00) % 28 < 28 := Nat.mod_lt _ (by omega)
    have hlenI : initials.length = 19 := by rfl
    have hlenM : medials.length = 21 := by rfl
    have hlenF : finals.length = 28 := by rfl
    rw [romanizeChar, hangulSplit]
    simp only [h, not_true, if_false]
    have e1 : 0x1100 + (c.toNat - 0xAC00) / 588 - 0x1100 =
        (c.toNat - 0xAC00) / 588 := by omega
    have e2 : 0x1161 + (c.toNat - 0xAC00) % 588 / 28 - 0x1161 =
        (c.toNat - 0xAC00) % 588 / 28 := by omega
    by_cases hz : (c.toNat - 0xAC00) % 28 = 0
    · simp only [hz, if_true, if_pos]
      rw [e1, e2, hlenI, hlenM]
      simp only [hI, hM, if_true, if_pos]
      simp [hz]
    · have e3 : 0x11A7 + (c.toNat - 0xAC00) % 28 ≠ 0 := by omega
      have e4 : 0x11A7 + (c.toNat - 0xAC00) % 28 - 0x11A7 =
          (c.toNat - 0xAC00) % 28 := by omega
      simp only [hz, if_false, e3, ne_eq, not_false_iff, if_true, e1, e2, e4,
        hlenI, hlenM, hlenF]
      simp only [hI, hM, if_true, if_pos]
      have h0 : 0 < (c.toNat - 0xAC00) % 28 := Nat.pos_of_ne_zero hz
      simp [hz, h0, hF]
  · have h122 : c.toNat ≤ 122 := by
      rcases h with ⟨h1, h2⟩ | ⟨h1, h2⟩ | ⟨h1, h2⟩
      · exact h2
      · have h2' : c.toNat ≤ 90 := h2
        omega
      · have h2' : c.toNat ≤ 57 := h2
        omega
    have hh : isHangulScalar c.toNat = false := by
      simp only [isHangulScalar, Bool.and_eq_false_iff]
      left
      simp only [decide_eq_false_iff_not]
      omega
    have ha : isASCIIAlphanumOrSpace c = true := by
      simp only [isASCIIAlphanumOrSpace, Bool.or_eq_true, Bool.and_eq_true,
        decide_eq_true_eq]
      tauto
    have hc : romanizeChar c = [c] := by
      simp [romanizeChar, hh, ha]
    exact ⟨hc, by simp [Romanize, hc]⟩

/-- Witness for C7's quantified parts at the syllable 하 and the letter
`G`. -/
theorem Romanize_tables_witness :
    romanizeChar '하' =
      initials.getD 18 [] ++ medials.getD 0 [] ++
        (if 0 = 0 then [] else finals.getD 0 []) ∧
    romanizeChar 'G' = ['G'] := by
  constructor
  · have h := Romanize_tables_and_examples.2.2.2.2.1 '하' (by decide)
    simpa using h
  · exact (Romanize_tables_and_examples.2.2.2.2.2 'G'
      (Or.inr (Or.inl ⟨by decide, by decide⟩))).1

/-- The scheduler invariant: runs in flight never exceed one, and the
flag tracks it. -/
theorem schedStep_inv (s : SchedState) (e : SchedEvent)
    (h : s.finished ≤ s.started ∧ s.started ≤ s.finished + 1 ∧
      (s.running = true ↔ s.started = s.finished + 1)) :
    (schedStep s e).finished ≤ (schedStep s e).started ∧
    (schedStep s e).started ≤ (schedStep s e).finished + 1 ∧
    ((schedStep s e).running = true ↔
      (schedStep s e).started = (schedStep s e).finished + 1) := by
  obtain ⟨h1, h2, h3⟩ := h
  cases e <;> cases hr : s.running <;>
    (simp_all [schedStep]; try omega)

/-- The invariant holds along every trace. -/
theorem schedRun_inv (tr : List SchedEvent) (s : SchedState)
    (h : s.finished ≤ s.started ∧ s.started ≤ s.finished + 1 ∧
      (s.running = true ↔ s.started = s.finished + 1)) :
    (schedRun s tr).finished ≤ (schedRun s tr).started ∧
    (schedRun s tr).started ≤ (schedRun s tr).finished + 1 ∧
    ((schedRun s tr).running = true ↔
      (schedRun s tr).started = (schedRun s tr).finished + 1) := by
  induction tr generalizing s with
  | nil => exact h
  | cons e rest ih => exact ih _ (schedStep_inv s e h)

/-- Traces behave identically from states that agree on everything but
the skip counter. -/
theorem schedRun_congr (tr : List SchedEvent) (s1 s2 : SchedState)
    (hr : s1.running = s2.running) (hs : s1.started = s2.started)
    (hf : s1.finished = s2.finished) :
    (schedRun s1 tr).running = (schedRun s2 tr).running ∧
    (schedRun s1 tr).started = (schedRun s2 tr).started ∧
    (schedRun s1 tr).finished = (schedRun s2 tr).finished := by
  induction tr generalizing s1 s2 with
  | nil => exact ⟨hr, hs, hf⟩
  | cons e rest ih =>
    refine ih (schedStep s1 e) (schedStep s2 e) ?_ ?_ ?_ <;>
      cases e <;> cases h : s1.running <;>
        simp_all [schedStep]

/-- Claim C9: the scheduler never has two sync runs in flight; a busy
attempt only bumps the skip counter — the sync function is not invoked,
nothing is queued, and every later trace behaves exactly as if the
attempt had not happened. -/
theorem scheduler_skip_busy (tr : List SchedEvent) (s : SchedState)
    (h : s.running = true) :
    inFlight (schedRun schedInit tr) ≤ 1 ∧
    schedStep s SchedEvent.attempt = { s with skipped := s.skipped + 1 } ∧
    (∀ tr2 : List SchedEvent,
      (schedRun (schedStep s SchedEvent.attempt) tr2).running =
        (schedRun s tr2).running ∧
      (schedRun (schedStep s SchedEvent.attempt) tr2).started =
        (schedRun s tr2).started ∧
      (schedRun (schedStep s SchedEvent.attempt) tr2).finished =
        (schedRun s tr2).finished) := by
  refine ⟨?_, by simp [schedStep, h], fun tr2 => ?_⟩
  · have hinv := schedRun_inv tr schedInit (by simp [schedInit])
    unfold inFlight
    omega
  · exact schedRun_congr tr2 _ _ (by simp [schedStep, h])
      (by simp [schedStep, h]) (by simp [schedStep, h])

/-- Witness for C9: a busy state skips the attempt; a concrete trace
stays within one in-flight run. -/
theorem scheduler_skip_busy_witness :
    inFlight (schedRun schedInit
      [SchedEvent.attempt, SchedEvent.attempt, SchedEvent.finish]) ≤ 1 ∧
    schedStep ⟨true, 1, 0, 0⟩ SchedEvent.attempt = ⟨true, 1, 0, 1⟩ := by
  have h := scheduler_skip_busy
    [SchedEvent.attempt, SchedEvent.attempt, SchedEvent.finish]
    ⟨true, 1, 0, 0⟩ rfl
  exact ⟨h.1, h.2.1⟩

/-- Claim C1: when the `temp → final` rename fails after `final` was
renamed to `old`, `atomicSwap` reports an error and the rollback
restores the published tree; even when the rollback itself fails the
previously published tree still exists under the `old` slot. -/
theorem atomicSwap_rollback (s : Slots) (f : SwapFaults) (pub : Fs)
    (hfin : s.final = some pub)
    (h1 : f.removeOldFails = false)
    (h2 : f.renameFinalToOldFails = false)
    (h3 : f.renameTempToFinalFails = true) :
    (atomicSwap s f).2.isSome = true ∧
    (f.renameOldToFinalFails = false →
      (atomicSwap s f).1.final = some pub) ∧
    ((atomicSwap s f).1.final = some pub ∨
      (atomicSwap s f).1.old = some pub) := by
  obtain ⟨fin, tmp, old⟩ := s
  simp only at hfin
  subst hfin
  cases old <;> cases hrb : f.renameOldToFinalFails <;>
    simp [atomicSwap, h1, h2, h3, hrb]

/-- Witness for C1: a concrete failed swap rolls the published tree
back. -/
theorem atomicSwap_rollback_witness :
    (atomicSwap
      ⟨some (Fs.file "F".data), some (Fs.file "T".data), none⟩
      ⟨false, false, true, false, false⟩).1.final =
      some (Fs.file "F".data) :=
  (atomicSwap_rollback _ _ _ rfl rfl rfl rfl).2.1 rfl

/-- Structural induction over directory listings (the mutual recursor
specialised to a trivial tree motive). -/
theorem entsInd {motive : Ents → Prop} (hnil : motive .nil)
    (hcons : ∀ n e rest, motive rest → motive (.cons n e rest)) :
    ∀ es, motive es
  | .nil => hnil
  | .cons n e rest => hcons n e rest (entsInd hnil hcons rest)

/-- `fileAt` unfolds to `getPath` hitting a file node. -/
theorem fileAt_eq_getPath (t : Fs) (p : List GoStr) (c : GoStr) :
    fileAt t p = some c ↔ getPath t p = some (Fs.file c) := by
  cases h : getPath t p with
  | none => simp [fileAt, h]
  | some e => cases e <;> simp [fileAt, h]

/-- Resolving one path step through a present entry. -/
theorem getPath_cons_some (es : Ents) (n : GoStr) (p : List GoStr) (e : Fs)
    (h : lookupEntry es n = some e) :
    getPath (Fs.dir es) (n :: p) = getPath e p := by
  rw [getPath, h]

/-- Resolving one path step through a missing entry. -/
theorem getPath_cons_none (es : Ents) (n : GoStr) (p : List GoStr)
    (h : lookupEntry es n = none) :
    getPath (Fs.dir es) (n :: p) = none := by
  rw [getPath, h]

/-- Listings agreeing on one lookup resolve that step identically. -/
theorem getPath_cons_congr (es es2 : Ents) (m : GoStr) (p : List GoStr)
    (h : lookupEntry es2 m = lookupEntry es m) :
    getPath (Fs.dir es2) (m :: p) = getPath (Fs.dir es) (m :: p) := by
  rw [getPath, getPath, h]

/-- Replacing one name leaves the lookup of any other name alone. -/
theorem lookupEntry_replaceEntry_ne (es : Ents) (n m : GoStr) (e' : Fs)
    (h : m ≠ n) :
    lookupEntry (replaceEntry es n e') m = lookupEntry es m := by
  induction es using entsInd with
  | hnil => rfl
  | hcons k e rest ih =>
    by_cases hk : k = n
    · subst hk
      simp [replaceEntry, lookupEntry, Ne.symm h]
    · simp [replaceEntry, hk, lookupEntry, ih]

/-- Replacing a present name makes its lookup return the new entry. -/
theorem lookupEntry_replaceEntry_self (es : Ents) (n : GoStr) (e' x : Fs)
    (h : lookupEntry es n = some x) :
    lookupEntry (replaceEntry es n e') n = some e' := by
  induction es using entsInd with
  | hnil => simp [lookupEntry] at h
  | hcons k e rest ih =>
    by_cases hk : k = n
    · simp [replaceEntry, hk, lookupEntry]
    · simp only [lookupEntry, if_neg hk] at h
      simp [replaceEntry, hk, lookupEntry, ih h]

/-- Inserting a name leaves the lookup of any other name alone. -/
theorem lookupEntry_insertEntry_ne (es : Ents) (n m : GoStr) (e : Fs)
    (h : m ≠ n) :
    lookupEntry (insertEntry es n e) m = lookupEntry es m := by
  induction es using entsInd with
  | hnil => simp [insertEntry, lookupEntry, Ne.symm h]
  | hcons k f rest ih =>
    by_cases hlt : goStrLt n k = true
    · simp [insertEntry, hlt, lookupEntry, Ne.symm h]
    · simp [insertEntry, hlt, lookupEntry, ih]

/-- Inserting a fresh name makes its lookup return the new entry. -/
theorem lookupEntry_insertEntry_self (es : Ents) (n : GoStr) (e : Fs)
    (h : lookupEntry es n = none) :
    lookupEntry (insertEntry es n e) n = some e := by
  induction es using entsInd with
  | hnil => simp [insertEntry, lookupEntry]
  | hcons k f rest ih =>
    by_cases hk : k = n
    · simp [lookupEntry, hk] at h
    · simp only [lookupEntry, if_neg hk] at h
      by_cases hlt : goStrLt n k = true
      · simp [insertEntry, hlt, lookupEntry]
      · simp [insertEntry, hlt, lookupEntry, hk, ih h]

/-- `setEntry` lookups: the written name returns the new entry. -/
theorem lookupEntry_setEntry_self (es : Ents) (n : GoStr) (e : Fs) :
    lookupEntry (setEntry es n e) n = some e := by
  unfold setEntry
  cases hl : lookupEntry es n with
  | some x => exact lookupEntry_replaceEntry_self es n e x hl
  | none => exact lookupEntry_insertEntry_self es n e hl

/-- `setEntry` lookups: any other name is untouched. -/
theorem lookupEntry_setEntry_ne (es : Ents) (n m : GoStr) (e : Fs)
    (h : m ≠ n) :
    lookupEntry (setEntry es n e) m = lookupEntry es m := by
  unfold setEntry
  cases hl : lookupEntry es n with
  | some x => exact lookupEntry_replaceEntry_ne es n m e h
  | none => exact lookupEntry_insertEntry_ne es n m e h

/-- `mkdirAll` stepping into an existing directory. -/
theorem mkdirAll_cons_dir (es : Ents) (n : GoStr) (rest : List GoStr)
    (sub : Ents) (h : lookupEntry es n = some (Fs.dir sub)) :
    mkdirAll (Fs.dir es) (n :: rest) =
      Fs.dir (replaceEntry es n (mkdirAll (Fs.dir sub) rest)) := by
  rw [mkdirAll, h]

/-- `mkdirAll` blocked by a file of the same name. -/
theorem mkdirAll_cons_file (es : Ents) (n : GoStr) (rest : List GoStr)
    (c : GoStr) (h : lookupEntry es n = some (Fs.file c)) :
    mkdirAll (Fs.dir es) (n :: rest) = Fs.dir es := by
  rw [mkdirAll, h]

/-- `mkdirAll` creating a fresh directory chain. -/
theorem mkdirAll_cons_none (es : Ents) (n : GoStr) (rest : List GoStr)
    (h : lookupEntry es n = none) :
    mkdirAll (Fs.dir es) (n :: rest) =
      Fs.dir (insertEntry es n (mkdirAll (Fs.dir .nil) rest)) := by
  rw [mkdirAll, h]

/-- `setPath` at depth one writes the entry. -/
theorem setPath_dir_single (es : Ents) (n : GoStr) (v : Fs) :
    setPath (Fs.dir es) [n] v = Fs.dir (setEntry es n v) := rfl

/-- `setPath` stepping through a present entry. -/
theorem setPath_dir_cons_some (es : Ents) (n r : GoStr) (rs : List GoStr)
    (v e : Fs) (h : lookupEntry es n = some e) :
    setPath (Fs.dir es) (n :: r :: rs) v =
      Fs.dir (replaceEntry es n (setPath e (r :: rs) v)) := by
  rw [setPath, h]
  simp

/-- `setPath` with a missing parent is a no-op. -/
theorem setPath_dir_cons_none (es : Ents) (n r : GoStr) (rs : List GoStr)
    (v : Fs) (h : lookupEntry es n = none) :
    setPath (Fs.dir es) (n :: r :: rs) v = Fs.dir es := by
  rw [setPath, h]
  simp

/-- A chain of freshly created directories contains only directories. -/
theorem getPath_mkdirAll_nil (q : List GoStr) (p : List GoStr) (e : Fs)
    (h : getPath (mkdirAll (Fs.dir .nil) q) p = some e) :
    ∃ es, e = Fs.dir es := by
  induction q generalizing p e with
  | nil =>
    match p with
    | [] =>
      have h' : some (Fs.dir Ents.nil) = some e := h
      exact ⟨_, (Option.some.inj h').symm⟩
    | m :: p' =>
      exact Option.noConfusion (show (none : Option Fs) = some e from h)
  | cons n rest ih =>
    rw [mkdirAll_cons_none Ents.nil n rest rfl] at h
    match p with
    | [] =>
      have h' :
          some (Fs.dir (insertEntry .nil n (mkdirAll (Fs.dir .nil) rest))) =
            some e := h
      exact ⟨_, (Option.some.inj h').symm⟩
    | m :: p' =>
      by_cases hm : n = m
      · subst hm
        rw [getPath_cons_some _ n p' (mkdirAll (Fs.dir .nil) rest)
          (by simp [insertEntry, lookupEntry])] at h
        exact ih p' e h
      · rw [getPath_cons_none _ _ _
          (by simp [insertEntry, lookupEntry, hm])] at h
        exact Option.noConfusion h

/-- `os.MkdirAll` creates no file: any file of the result was already
present in the tree. -/
theorem fileAt_mkdirAll (q : List GoStr) (t : Fs) (p : List GoStr)
    (c : GoStr) (h : fileAt (mkdirAll t q) p = some c) :
    fileAt t p = some c := by
  induction q generalizing t p with
  | nil => exact h
  | cons n rest ih =>
    match t with
    | .file c' => exact h
    | .dir es =>
      rw [fileAt_eq_getPath] at h ⊢
      cases hl : lookupEntry es n with
      | some e =>
        match e with
        | .file c'' =>
          rw [mkdirAll_cons_file es n rest c'' hl] at h
          exact h
        | .dir sub =>
          rw [mkdirAll_cons_dir es n rest sub hl] at h
          match p with
          | [] => simp [getPath] at h
          | m :: p' =>
            by_cases hm : m = n
            · subst hm
              rw [getPath_cons_some _ _ _ _
                (lookupEntry_replaceEntry_self es m _ _ hl)] at h
              have h2 := ih (Fs.dir sub) p'
                ((fileAt_eq_getPath _ _ _).2 h)
              rw [fileAt_eq_getPath] at h2
              rw [getPath_cons_some _ _ _ _ hl]
              exact h2
            · rw [getPath_cons_congr es _ m p'
                (lookupEntry_replaceEntry_ne es n m _ hm)] at h
              exact h
      | none =>
        rw [mkdirAll_cons_none es n rest hl] at h
        match p with
        | [] => simp [getPath] at h
        | m :: p' =>
          by_cases hm : m = n
          · subst hm
            rw [getPath_cons_some _ _ _ _
              (lookupEntry_insertEntry_self es m _ hl)] at h
            obtain ⟨es2, he⟩ := getPath_mkdirAll_nil rest p' _ h
            exact Fs.noConfusion he
          · rw [getPath_cons_congr es _ m p'
              (lookupEntry_insertEntry_ne es n m _ hm)] at h
            exact h

/-- Writing one file: any file of the result is either the written file
or was already present. -/
theorem fileAt_setPath_file (p : List GoStr) (t : Fs) (v : GoStr)
    (q : List GoStr) (d : GoStr)
    (h : fileAt (setPath t p (Fs.file v)) q = some d) :
    fileAt t q = some d ∨ (q = p ∧ d = v) := by
  induction p generalizing t q with
  | nil => exact Or.inl h
  | cons n rest ih =>
    match rest with
    | [] =>
      match t with
      | .file c' => exact Or.inl h
      | .dir es =>
        rw [fileAt_eq_getPath] at h
        rw [setPath_dir_single] at h
        match q with
        | [] => simp [getPath] at h
        | m :: q' =>
          by_cases hm : m = n
          · subst hm
            rw [getPath_cons_some _ _ _ _
              (lookupEntry_setEntry_self es m _)] at h
            match q' with
            | [] =>
              simp only [getPath, Option.some.injEq] at h
              exact Or.inr ⟨rfl, by
                have h2 := h
                simp only [Fs.file.injEq] at h2
                exact h2.symm⟩
            | r :: q'' => simp [getPath] at h
          · rw [getPath_cons_congr es _ m q'
              (lookupEntry_setEntry_ne es n m _ hm)] at h
            exact Or.inl ((fileAt_eq_getPath _ _ _).2 h)
    | r :: rs =>
      match t with
      | .file c' => exact Or.inl h
      | .dir es =>
        rw [fileAt_eq_getPath] at h
        cases hl : lookupEntry es n with
        | some e =>
          rw [setPath_dir_cons_some es n r rs _ e hl] at h
          match q with
          | [] => simp [getPath] at h
          | m :: q' =>
            by_cases hm : m = n
            · subst hm
              rcases ih e q' ((fileAt_eq_getPath _ _ _).2 (by
                  rw [getPath_cons_some _ _ _ _
                    (lookupEntry_replaceEntry_self es m _ _ hl)] at h
                  exact h)) with h' | ⟨hq, hd⟩
              · refine Or.inl ((fileAt_eq_getPath _ _ _).2 ?_)
                rw [getPath_cons_some _ _ _ _ hl]
                exact (fileAt_eq_getPath _ _ _).1 h'
              · exact Or.inr ⟨by rw [hq], hd⟩
            · rw [getPath_cons_congr es _ m q'
                (lookupEntry_replaceEntry_ne es n m _ hm)] at h
              exact Or.inl ((fileAt_eq_getPath _ _ _).2 h)
        | none =>
          rw [setPath_dir_cons_none es n r rs _ hl] at h
          exact Or.inl ((fileAt_eq_getPath _ _ _).2 h)

/-- Every file of the fold of build writes comes from the start tree or
the written list. -/
theorem fileAt_build_foldl (files : List (List GoStr × GoStr)) (t : Fs)
    (q : List GoStr) (d : GoStr)
    (h : fileAt (files.foldl (fun t pc => writeFileMk t pc.1 pc.2) t) q =
      some d) :
    fileAt t q = some d ∨ (q, d) ∈ files := by
  induction files generalizing t with
  | nil => exact Or.inl h
  | cons pc rest ih =>
    rcases ih (writeFileMk t pc.1 pc.2) h with h' | h'
    · unfold writeFileMk at h'
      rcases fileAt_setPath_file pc.1 _ pc.2 q d h' with h'' | ⟨hq, hd⟩
      · exact Or.inl (fileAt_mkdirAll pc.1.dropLast t q d h'')
      · exact Or.inr (by simp [hq, hd])
    · exact Or.inr (List.mem_cons_of_mem _ h')

/-- Claim C5: the build phase deletes any stale temp tree before
building — the built tree is identical to a build from no stale temp,
and every file it contains is one of the snapshot's exported files, so
no stale content survives into the new build. -/
theorem buildPhase_no_stale (staleTemp : Option Fs)
    (files : List (List GoStr × GoStr)) (p : List GoStr) (c : GoStr)
    (h : fileAt (buildPhase staleTemp files) p = some c) :
    buildPhase staleTemp files = buildPhase none files ∧ (p, c) ∈ files := by
  constructor
  · cases staleTemp <;> rfl
  · have h' : fileAt
        (files.foldl (fun t pc => writeFileMk t pc.1 pc.2) (Fs.dir .nil)) p =
        some c := by
      cases staleTemp <;> exact h
    rcases fileAt_build_foldl files (Fs.dir .nil) p c h' with h'' | h''
    · rw [fileAt_eq_getPath] at h''
      cases p <;> simp [getPath, lookupEntry] at h''
    · exact h''

/-- Witness for C5: building over the stale demo tree yields only the
snapshot files. -/
theorem buildPhase_no_stale_witness :
    buildPhase (some staleDemoTree) demoFiles = buildPhase none demoFiles ∧
    (["a.md".data], "A".data) ∈ demoFiles := by
  exact buildPhase_no_stale (some staleDemoTree) demoFiles
    ["a.md".data] "A".data (by rfl)

/-- The merge step over a conflicting source file: the copy is dropped,
the destination untouched, no error. -/
theorem mergeGo_file_some (n : GoStr) (c : GoStr) (rest dst : Ents)
    (e : Fs) (hl : lookupEntry dst n = some e) :
    mergeGo (.cons n (Fs.file c) rest) dst = mergeGo rest dst := by
  rw [mergeGo, hl]

/-- The merge step over a fresh source file: it moves over. -/
theorem mergeGo_file_none (n : GoStr) (c : GoStr) (rest dst : Ents)
    (hl : lookupEntry dst n = none) :
    mergeGo (.cons n (Fs.file c) rest) dst =
      mergeGo rest (insertEntry dst n (Fs.file c)) := by
  rw [mergeGo, hl]

/-- The merge step over a fresh source directory: it moves over. -/
theorem mergeGo_dir_none (n : GoStr) (sub rest dst : Ents)
    (hl : lookupEntry dst n = none) :
    mergeGo (.cons n (Fs.dir sub) rest) dst =
      mergeGo rest (insertEntry dst n (Fs.dir sub)) := by
  rw [mergeGo, hl]

/-- The merge step over a directory colliding with a destination file:
the rename fails and the merge aborts. -/
theorem mergeGo_dir_file (n : GoStr) (sub rest dst : Ents) (c : GoStr)
    (hl : lookupEntry dst n = some (Fs.file c)) :
    mergeGo (.cons n (Fs.dir sub) rest) dst =
      (.cons n (Fs.dir sub) rest, dst, false) := by
  rw [mergeGo, hl]

/-- The merge step over a directory/directory pair: recursive merge. -/
theorem mergeGo_dir_dir (n : GoStr) (sub rest dst dsub : Ents)
    (hl : lookupEntry dst n = some (Fs.dir dsub)) :
    mergeGo (.cons n (Fs.dir sub) rest) dst =
      if (mergeGo sub dsub).2.2 then
        mergeGo rest (replaceEntry dst n (Fs.dir (mergeGo sub dsub).2.1))
      else (.cons n (Fs.dir (mergeGo sub dsub).1) rest,
        replaceEntry dst n (Fs.dir (mergeGo sub dsub).2.1), false) := by
  rw [mergeGo, hl]

/-- Inserting a fresh name keeps every existing file reachable. -/
theorem fileAt_insertEntry (dst : Ents) (n : GoStr) (e : Fs)
    (q : List GoStr) (d : GoStr) (hl : lookupEntry dst n = none)
    (h : fileAt (Fs.dir dst) q = some d) :
    fileAt (Fs.dir (insertEntry dst n e)) q = some d := by
  match q with
  | [] => simp [fileAt, getPath] at h
  | m :: q' =>
    rw [fileAt_eq_getPath] at h ⊢
    by_cases hm : m = n
    · subst hm
      rw [getPath_cons_none dst m q' hl] at h
      exact Option.noConfusion h
    · rw [getPath_cons_congr dst _ m q'
        (lookupEntry_insertEntry_ne dst n m e hm)]
      exact h

/-- Replacing a subdirectory by one that preserves its files keeps every
file of the listing reachable. -/
theorem fileAt_replaceEntry_dir (dst : Ents) (n : GoStr)
    (dsub dsub2 : Ents) (q : List GoStr) (d : GoStr)
    (hl : lookupEntry dst n = some (Fs.dir dsub))
    (hrec : ∀ q' d', fileAt (Fs.dir dsub) q' = some d' →
      fileAt (Fs.dir dsub2) q' = some d')
    (h : fileAt (Fs.dir dst) q = some d) :
    fileAt (Fs.dir (replaceEntry dst n (Fs.dir dsub2))) q = some d := by
  match q with
  | [] => simp [fileAt, getPath] at h
  | m :: q' =>
    rw [fileAt_eq_getPath] at h ⊢
    by_cases hm : m = n
    · subst hm
      rw [getPath_cons_some dst m q' _ hl] at h
      rw [getPath_cons_some _ m q' (Fs.dir dsub2)
        (lookupEntry_replaceEntry_self dst m _ _ hl)]
      exact (fileAt_eq_getPath _ _ _).1
        (hrec q' d ((fileAt_eq_getPath _ _ _).2 h))
    · rw [getPath_cons_congr dst _ m q'
        (lookupEntry_replaceEntry_ne dst n m _ hm)]
      exact h

/-- The merge keeps every destination file byte-identical at every
depth. -/
theorem mergeGo_dst_keep : ∀ (src dst : Ents) (q : List GoStr) (d : GoStr),
    fileAt (Fs.dir dst) q = some d →
    fileAt (Fs.dir (mergeGo src dst).2.1) q = some d
  | .nil, _, _, _, h => h
  | .cons n (Fs.file c) rest, dst, q, d, h => by
    cases hl : lookupEntry dst n with
    | some e =>
      rw [mergeGo_file_some n c rest dst e hl]
      exact mergeGo_dst_keep rest dst q d h
    | none =>
      rw [mergeGo_file_none n c rest dst hl]
      exact mergeGo_dst_keep rest _ q d (fileAt_insertEntry dst n _ q d hl h)
  | .cons n (Fs.dir sub) rest, dst, q, d, h => by
    cases hl : lookupEntry dst n with
    | none =>
      rw [mergeGo_dir_none n sub rest dst hl]
      exact mergeGo_dst_keep rest _ q d (fileAt_insertEntry dst n _ q d hl h)
    | some e =>
      match e with
      | .file c' =>
        rw [mergeGo_dir_file n sub rest dst c' hl]
        exact h
      | .dir dsub =>
        rw [mergeGo_dir_dir n sub rest dst dsub hl]
        have hkeep : fileAt
            (Fs.dir (replaceEntry dst n (Fs.dir (mergeGo sub dsub).2.1)))
            q = some d :=
          fileAt_replaceEntry_dir dst n dsub _ q d hl
            (fun q' d' h' => mergeGo_dst_keep sub dsub q' d' h') h
        by_cases hok : (mergeGo sub dsub).2.2 = true
        · rw [if_pos hok]
          exact mergeGo_dst_keep rest _ q d hkeep
        · rw [if_neg hok]
          exact hkeep

/-- A successful merge drains the source listing completely. -/
theorem mergeGo_ok_drains : ∀ (src dst : Ents),
    (mergeGo src dst).2.2 = true → (mergeGo src dst).1 = Ents.nil
  | .nil, _, _ => rfl
  | .cons n (Fs.file c) rest, dst, h => by
    cases hl : lookupEntry dst n with
    | some e =>
      rw [mergeGo_file_some n c rest dst e hl] at h ⊢
      exact mergeGo_ok_drains rest dst h
    | none =>
      rw [mergeGo_file_none n c rest dst hl] at h ⊢
      exact mergeGo_ok_drains rest _ h
  | .cons n (Fs.dir sub) rest, dst, h => by
    cases hl : lookupEntry dst n with
    | none =>
      rw [mergeGo_dir_none n sub rest dst hl] at h ⊢
      exact mergeGo_ok_drains rest _ h
    | some e =>
      match e with
      | .file c' =>
        rw [mergeGo_dir_file n sub rest dst c' hl] at h
        simp at h
      | .dir dsub =>
        rw [mergeGo_dir_dir n sub rest dst dsub hl] at h ⊢
        by_cases hok : (mergeGo sub dsub).2.2 = true
        · rw [if_pos hok] at h ⊢
          exact mergeGo_ok_drains rest _ h
        · rw [if_neg hok] at h
          simp at h

/-- Claim C4: merging a source directory into a destination keeps every
destination file byte-identical at every depth; a conflicting source
file is simply dropped — the merge continues with no error and the
destination untouched — and a successful merge drains the source, so
the source's copies are discarded. -/
theorem merge_destination_wins (src dst : Ents) :
    (∀ q d, fileAt (Fs.dir dst) q = some d →
      fileAt (Fs.dir (mergeGo src dst).2.1) q = some d) ∧
    ((mergeGo src dst).2.2 = true → (mergeGo src dst).1 = Ents.nil) ∧
    (∀ n c rest e, lookupEntry dst n = some e →
      mergeGo (Ents.cons n (Fs.file c) rest) dst = mergeGo rest dst) :=
  ⟨fun q d h => mergeGo_dst_keep src dst q d h,
   fun h => mergeGo_ok_drains src dst h,
   fun n c rest e hl => mergeGo_file_some n c rest dst e hl⟩

/-- Witness for C4: `x.png` of the destination survives with content
`D`; the successful merge leaves no source entries. -/
theorem merge_destination_wins_witness :
    fileAt (Fs.dir (mergeGo mergeSrcDemo mergeDstDemo).2.1) ["x.png".data]
      = some "D".data ∧
    (mergeGo mergeSrcDemo mergeDstDemo).1 = Ents.nil := by
  have h := merge_destination_wins mergeSrcDemo mergeDstDemo
  exact ⟨h.1 ["x.png".data] "D".data (by rfl), h.2.1 (by rfl)⟩

/-- Counterexample to claim C10: the non-`.md` attachment
`assets(v1)/x.png` (content `S`) does not survive the sanitize pass —
renaming `assets(v1)` onto the existing `assetsv1` merges the
directories and the destination's `x.png` wins, so the source's copy is
deleted. -/
theorem sanitize_nonmd_frame_counterexample :
    fsFiles (SanitizeSpecialCharacters sanitizeClashTree) =
      [(["assetsv1".data, "x.png".data], "D".data)] ∧
    fileAt sanitizeClashTree ["assets(v1)".data, "x.png".data] =
      some "S".data ∧
    goEndsWith (goToLower "x.png".data) ".md".data = false := by
  decide

/-- Claim C10 (amended): the sanitize pass selects as rename targets
only directories and `.md`-named files — a non-`.md` file is never
itself renamed — though a merged directory rename may still delete a
conflicting non-`.md` source file as a side effect. -/
theorem sanitize_targets_selection (t : Fs) (p : List GoStr)
    (h : p ∈ sanitizeTargets t) :
    (p, true) ∈ fsWalk t ∨
      goEndsWith (goToLower (p.getLastD [])) ".md".data = true := by
  obtain ⟨pi, hmem, heq⟩ := List.mem_filterMap.1 h
  obtain ⟨q, b⟩ := pi
  cases b with
  | true =>
    simp at heq
    obtain ⟨-, hq⟩ := heq
    subst hq
    exact Or.inl hmem
  | false =>
    simp at heq
    obtain ⟨-, hmd, hq⟩ := heq
    subst hq
    exact Or.inr (by simpa using hmd)

/-- Witness for the amended C10: the sole target of the clash tree is
the directory `assets(v1)`. -/
theorem sanitize_targets_selection_witness :
    ["assets(v1)".data] ∈ sanitizeTargets sanitizeClashTree ∧
    ((["assets(v1)".data], true) ∈ fsWalk sanitizeClashTree ∨
      goEndsWith (goToLower (["assets(v1)".data].getLastD []))
        ".md".data = true) :=
  ⟨by decide, sanitize_targets_selection sanitizeClashTree _ (by decide)⟩

/-- Counterexample to claim C3: for title `A/B` over `A/B.md` (content
`X`) the merged file is `AB.md` — the non-romanized branch joins the
title segments with no separator — so no `A-B.md` exists; directory `A`
is gone as claimed. -/
theorem merge_slash_counterexample :
    fileAt (MergeSlashSplitFiles slashPages (slashTree "X".data))
      ["AB.md".data] = some "X".data ∧
    fileAt (MergeSlashSplitFiles slashPages (slashTree "X".data))
      ["A-B.md".data] = none ∧
    getPath (MergeSlashSplitFiles slashPages (slashTree "X".data))
      ["A".data] = none :=
  ⟨rfl, rfl, rfl⟩

/-- Claim C3 (amended): for metadata title `A/B` and directory `A/`
holding `B.md` with content `X`, the slash-merge pass yields the single
file `AB.md` (the segments joined with no separator, the title having
no Korean) with content `X` at the level where `A/` stood, and
directory `A/` no longer exists. -/
theorem merge_slash_produces_joined_file (X : GoStr) :
    MergeSlashSplitFiles slashPages (slashTree X) =
      Fs.dir (entsOf [("AB.md".data, Fs.file X)]) ∧
    getPath (MergeSlashSplitFiles slashPages (slashTree X))
      ["A".data] = none :=
  ⟨rfl, rfl⟩

set_option maxRecDepth 100000 in
/-- Claim C2 is refuted by the code: on a page whose title holds a brace
placeholder, the first pipeline run adds frontmatter with the raw title,
and the second run's placeholder-wrapping pass then wraps the braces
inside that frontmatter title line, so the second run is not the
identity — the document's bytes differ from the first run's output. -/
theorem pipeline_second_run_differs :
    runSyncPasses evalPages evalTree = (evalPages, evalTreeRun1) ∧
    fileAt (runSyncPasses (runSyncPasses evalPages evalTree).1
        (runSyncPasses evalPages evalTree).2).2 ["T x.md".data] ≠
      fileAt (runSyncPasses evalPages evalTree).2 ["T x.md".data] := by
  have h1t : runSyncPasses evalPages evalTree = (evalPages, evalTreeRun1) :=
    rfl
  refine ⟨h1t, ?_⟩
  rw [h1t]
  decide

/-- Every string has the empty prefix. -/
theorem goStartsWith_nil (s : GoStr) : goStartsWith s [] = true := by
  cases s <;> rfl

/-- A prefix test that succeeds splits the string. -/
theorem goStartsWith_decomp (s pat : GoStr) (h : goStartsWith s pat = true) :
    s = pat ++ s.drop pat.length := by
  induction pat generalizing s with
  | nil => simp
  | cons p ps ih =>
    match s with
    | [] => simp [goStartsWith] at h
    | c :: s' =>
      simp only [goStartsWith, Bool.and_eq_true, decide_eq_true_eq] at h
      obtain ⟨hc, hrest⟩ := h
      subst hc
      simpa using ih s' hrest

/-- A prefix test inside the first summand ignores the appended tail. -/
theorem goStartsWith_append_left (s t pat : GoStr) (h : pat.length ≤ s.length) :
    goStartsWith (s ++ t) pat = goStartsWith s pat := by
  induction pat generalizing s with
  | nil => simp [goStartsWith_nil]
  | cons p ps ih =>
    match s with
    | [] => simp at h
    | c :: s' =>
      simp only [List.cons_append, goStartsWith, List.append_eq]
      rw [ih s' (by simpa using h)]

/-- A pattern longer than the string is never a prefix. -/
theorem goStartsWith_short (s pat : GoStr) (h : s.length < pat.length) :
    goStartsWith s pat = false := by
  induction pat generalizing s with
  | nil => simp at h
  | cons p ps ih =>
    match s with
    | [] => rfl
    | c :: s' =>
      simp only [goStartsWith, Bool.and_eq_false_iff]
      exact Or.inr (ih s' (by simpa using h))

/-- A common leading segment cancels from a prefix test. -/
theorem goStartsWith_cancel (a b c : GoStr) :
    goStartsWith (a ++ b) (a ++ c) = goStartsWith b c := by
  induction a with
  | nil => rfl
  | cons x a' ih => simp [goStartsWith, ih]

/-- A prefix of a prefix is a prefix. -/
theorem goStartsWith_prefix (s p1 p2 : GoStr)
    (h : goStartsWith s (p1 ++ p2) = true) : goStartsWith s p1 = true := by
  induction p1 generalizing s with
  | nil => cases s <;> rfl
  | cons p ps ih =>
    match s with
    | [] => simp [goStartsWith] at h
    | c :: s' =>
      simp only [List.cons_append, goStartsWith, Bool.and_eq_true] at h ⊢
      exact ⟨h.1, ih s' h.2⟩

/-- The prefix strip in terms of `goStartsWith` and `drop`. -/
theorem goStripStart_eq (pat s : GoStr) :
    goStripStart pat s =
      if goStartsWith s pat then some (s.drop pat.length) else none := by
  induction pat generalizing s with
  | nil => cases s <;> rfl
  | cons p ps ih =>
    match s with
    | [] => rfl
    | c :: s' =>
      by_cases hc : c = p
      · subst hc
        simp [goStripStart, goStartsWith, ih]
      · simp [goStripStart, goStartsWith, hc]

/-- A suffix test inside the second summand ignores the prepended front. -/
theorem goEndsWith_append (a b pat : GoStr) (h : pat.length ≤ b.length) :
    goEndsWith (a ++ b) pat = goEndsWith b pat := by
  unfold goEndsWith
  rw [List.reverse_append]
  exact goStartsWith_append_left b.reverse a.reverse pat.reverse
    (by simpa using h)

/-- A pattern longer than the string is never a suffix. -/
theorem goEndsWith_short (s pat : GoStr) (h : s.length < pat.length) :
    goEndsWith s pat = false :=
  goStartsWith_short s.reverse pat.reverse (by simpa using h)

/-- The suffix strip on a matching suffix. -/
theorem goStripEnd_pos (pat s : GoStr) (h : goEndsWith s pat = true) :
    goStripEnd pat s = some (s.take (s.length - pat.length)) := by
  unfold goStripEnd
  rw [if_pos h]

/-- The suffix strip on a mismatching suffix. -/
theorem goStripEnd_neg (pat s : GoStr) (h : goEndsWith s pat = false) :
    goStripEnd pat s = none := by
  unfold goStripEnd
  rw [h]
  simp

/-- Searching a single character steps over a different head. -/
theorem goIndexOfSub_cons_ne (d : Char) (s : GoStr) (c : Char) (h : d ≠ c) :
    goIndexOfSub (d :: s) [c] = (goIndexOfSub s [c]).map (· + 1) := by
  rw [goIndexOfSub, if_neg (by simp [goStartsWith, h])]

/-- A failed single-character search means the character is absent. -/
theorem goIndexOfSub_none (c : Char) (s : GoStr)
    (h : goIndexOfSub s [c] = none) : c ∉ s := by
  induction s with
  | nil => simp
  | cons d rest ih =>
    by_cases hd : d = c
    · subst hd
      rw [goIndexOfSub, if_pos (by simp [goStartsWith])] at h
      exact Option.noConfusion h
    · rw [goIndexOfSub_cons_ne d rest c hd] at h
      simp only [Option.map_eq_none'] at h
      simp only [List.mem_cons, not_or]
      exact ⟨fun hh => hd hh.symm, ih h⟩

/-- A found single-character index splits the string at its first occurrence. -/
theorem goIndexOfSub_single_some (c : Char) (s : GoStr) (k : Nat)
    (h : goIndexOfSub s [c] = some k) :
    ∃ a b, s = a ++ c :: b ∧ a.length = k ∧ c ∉ a := by
  induction s generalizing k with
  | nil => simp [goIndexOfSub, goStartsWith] at h
  | cons d rest ih =>
    by_cases hd : d = c
    · subst hd
      simp [goIndexOfSub, goStartsWith] at h
      exact ⟨[], rest, rfl, by simp [h.symm], by simp⟩
    · rw [goIndexOfSub] at h
      rw [if_neg (by simp [goStartsWith, hd])] at h
      simp only [Option.map_eq_some'] at h
      obtain ⟨k', hk', hkk⟩ := h
      obtain ⟨a', b', hs, hlen, hmem⟩ := ih k' hk'
      refine ⟨d :: a', b', by simp [hs], by simp [hlen, hkk], ?_⟩
      simp only [List.mem_cons, not_or]
      exact ⟨fun hh => hd hh.symm, hmem⟩

/-- A string that trims to nothing is all whitespace. -/
theorem goTrimSpace_nil_all (s : GoStr) (h : goTrimSpace s = []) :
    ∀ x ∈ s, isGoSpace x = true := by
  unfold goTrimSpace at h
  rw [List.reverse_eq_nil_iff] at h
  rw [List.dropWhile_eq_nil_iff] at h
  intro x hx
  rcases List.mem_append.1
    ((List.takeWhile_append_dropWhile (p := isGoSpace) (l := s)) ▸ hx) with
      h1 | h1
  · exact List.mem_takeWhile_imp h1
  · exact h x (by simpa using h1)

/-- What survives a `dropWhile` starts with a failing character. -/
theorem dropWhile_headD (f : Char → Bool) (l : GoStr) (d : Char)
    (h : l.dropWhile f ≠ []) : f ((l.dropWhile f).headD d) = false := by
  induction l with
  | nil => simp at h
  | cons c r ih =>
    by_cases hc : f c = true
    · rw [List.dropWhile_cons_of_pos hc] at h ⊢
      exact ih h
    · rw [List.dropWhile_cons_of_neg (by simpa using hc)]
      simpa using hc

/-- A trimmed string does not end in whitespace. -/
theorem trimmed_getLast (tc : GoStr) (h : goTrimSpace tc = tc)
    (hne : tc ≠ []) : isGoSpace (tc.getLastD ' ') = false := by
  have h2 : (tc.dropWhile isGoSpace).reverse.dropWhile isGoSpace =
      tc.reverse := by
    have := congrArg List.reverse h
    simpa [goTrimSpace] using this
  have hne2 : tc.reverse ≠ [] := by simpa using hne
  have h3 := dropWhile_headD isGoSpace (tc.dropWhile isGoSpace).reverse ' '
    (by rw [h2]; exact hne2)
  rw [h2] at h3
  rw [List.getLastD_eq_getLast?, ← List.head?_reverse]
  rwa [List.headD_eq_head?] at h3

/-- The last element of an append ending in a nonempty list. -/
theorem getLastD_append_cons (v l : List Char) (a : Char) :
    ∀ d, (v ++ a :: l).getLastD d = (a :: l).getLastD d := by
  induction v with
  | nil => intro d; rfl
  | cons x xs ih =>
    intro d
    rw [List.cons_append, List.getLastD_cons, ih x, List.getLastD_cons,
      List.getLastD_cons]

/-- A suffix of a trimmed string that trims to nothing is empty. -/
theorem trimmed_suffix_nil (tc v u : GoStr) (h : goTrimSpace tc = tc)
    (htc : tc = v ++ u) (hu : goTrimSpace u = []) : u = [] := by
  by_contra hne
  have hsp : isGoSpace (u.getLastD ' ') = true := by
    have hmem : u.getLastD ' ' ∈ u := by
      cases u with
      | nil => exact absurd rfl hne
      | cons a l =>
        rw [List.getLastD_eq_getLast?, List.getLast?_eq_getLast _ (by simp)]
        exact List.getLast_mem _
    exact goTrimSpace_nil_all u hu _ hmem
  have htcne : tc ≠ [] := by
    rw [htc]
    simp [hne]
  have hlast : tc.getLastD ' ' = u.getLastD ' ' := by
    rw [htc]
    cases u with
    | nil => exact absurd rfl hne
    | cons a l => exact getLastD_append_cons v l a ' '
  rw [← hlast] at hsp
  rw [trimmed_getLast tc h htcne] at hsp
  exact Bool.noConfusion hsp

/-- The amended name criterion unfolded under a matching `untitled ` prefix. -/
theorem amendedUntitledName_pos (ln : GoStr)
    (h2 : goStartsWith ln "untitled ".data = true) :
    amendedUntitledName ln =
      (decide (ln = "untitled.md".data) ||
        (goEndsWith (ln.drop 9) ".md".data &&
          (!((ln.drop 9).take ((ln.drop 9).length - 3)).isEmpty &&
            ((ln.drop 9).take ((ln.drop 9).length - 3)).all
              (fun c => decide ('0' ≤ c ∧ c ≤ '9'))))) := by
  unfold amendedUntitledName
  rw [goStripStart_eq, if_pos h2]
  rw [show ("untitled ".data : GoStr).length = 9 from rfl]
  show (decide (ln = "untitled.md".data) ||
      (match goStripEnd ".md".data (ln.drop 9) with
       | some ds => !ds.isEmpty &&
           ds.all (fun c => decide ('0' ≤ c ∧ c ≤ '9'))
       | none => false)) = _
  by_cases h3 : goEndsWith (ln.drop 9) ".md".data = true
  · rw [goStripEnd_pos _ _ h3, h3]
    rw [show (".md".data : GoStr).length = 3 from rfl]
    simp
  · have h3' : goEndsWith (ln.drop 9) ".md".data = false := by simpa using h3
    rw [goStripEnd_neg _ _ h3', h3']
    simp

/-- The amended name criterion without the `untitled ` prefix. -/
theorem amendedUntitledName_neg (ln : GoStr)
    (h2 : goStartsWith ln "untitled ".data = false) :
    amendedUntitledName ln = decide (ln = "untitled.md".data) := by
  unfold amendedUntitledName
  rw [goStripStart_eq, if_neg (by simp [h2])]
  simp

/-- The name test of the walk body agrees with the amended name criterion, the numbered flag marking the non-plain case. -/
theorem isUntitledFile_eq (ln : GoStr) :
    isUntitledFile ln =
      (amendedUntitledName ln,
        amendedUntitledName ln && !(decide (ln = "untitled.md".data))) := by
  by_cases h1 : ln = "untitled.md".data
  · subst h1; decide
  · by_cases h2 : goStartsWith ln "untitled ".data = true
    · have hdec : ln = "untitled ".data ++ ln.drop 9 := by
        simpa using goStartsWith_decomp ln "untitled ".data h2
      have h9 : 9 ≤ ln.length := by
        have := congrArg List.length hdec
        simp at this
        omega
      rw [amendedUntitledName_pos ln h2]
      unfold isUntitledFile
      rw [if_neg h1, if_neg (not_not_intro h2), decide_eq_false h1]
      dsimp only
      by_cases hr3 : 3 ≤ (ln.drop 9).length
      · have hee : goEndsWith ln ".md".data =
            goEndsWith (ln.drop 9) ".md".data := by
          conv_lhs => rw [hdec]
          exact goEndsWith_append _ _ _ (by simpa using hr3)
        have htt : ln.length - 12 = (ln.drop 9).length - 3 := by
          simp only [List.length_drop]
          omega
        by_cases h3 : goEndsWith (ln.drop 9) ".md".data = true
        · have hml : goEndsWith ln ".md".data = true := by rw [hee]; exact h3
          rw [if_neg (not_not_intro hml), htt, h3]
          by_cases hm : (ln.drop 9).take ((ln.drop 9).length - 3) = []
          · rw [if_pos hm, hm]
            simp
          · rw [if_neg hm]
            by_cases hdig : ((ln.drop 9).take ((ln.drop 9).length - 3)).all
                (fun c => decide ('0' ≤ c ∧ c ≤ '9')) = true
            · obtain ⟨a, l, hq⟩ : ∃ a l,
                  (ln.drop 9).take ((ln.drop 9).length - 3) = a :: l := by
                cases hq : (ln.drop 9).take ((ln.drop 9).length - 3) with
                | nil => exact absurd hq hm
                | cons a l => exact ⟨a, l, rfl⟩
              rw [if_pos hdig]
              rw [hq] at hdig ⊢
              rw [hdig]
              simp
            · have hdig' : ((ln.drop 9).take ((ln.drop 9).length - 3)).all
                  (fun c => decide ('0' ≤ c ∧ c ≤ '9')) = false := by
                simpa using hdig
              rw [if_neg hdig, hdig']
              simp
        · have h3' : goEndsWith (ln.drop 9) ".md".data = false := by
            simpa using h3
          have hml : goEndsWith ln ".md".data = false := by rw [hee]; exact h3'
          rw [if_pos (by simp [hml]), h3']
          simp
      · have h3' : goEndsWith (ln.drop 9) ".md".data = false :=
          goEndsWith_short _ _ (by
            rw [show (".md".data : GoStr).length = 3 from rfl]
            simp only [List.length_drop] at hr3 ⊢
            omega)
        have hz : ln.length - 12 = 0 := by
          simp only [List.length_drop] at hr3
          omega
        rw [h3']
        by_cases hml : goEndsWith ln ".md".data = true
        · rw [if_neg (not_not_intro hml), hz]
          simp
        · rw [if_pos (by simpa using hml)]
          simp
    · have h2' : goStartsWith ln "untitled ".data = false := by simpa using h2
      unfold isUntitledFile
      rw [amendedUntitledName_neg ln h2', decide_eq_false h1,
        if_neg h1, if_pos (by simp [h2'])]
      simp

/-- The parenthesis tail without a closing parenthesis. -/
theorem untitledParenTail_none (rest : GoStr)
    (hio : goIndexOfSub rest [')'] = none) :
    untitledParenTail rest = false := by
  rw [untitledParenTail, hio]

/-- The parenthesis tail at the first closing parenthesis. -/
theorem untitledParenTail_some (rest : GoStr) (k : Nat)
    (hio : goIndexOfSub rest [')'] = some k) :
    untitledParenTail rest =
      (if 2 < k then
        (if (rest.drop 2).take (k - 2) ≠ [] ∧
            ((rest.drop 2).take (k - 2)).all (fun c => '0' ≤ c ∧ c ≤ '9')
         then decide (goTrimSpace (rest.drop (k + 1)) = [])
         else false)
       else false) := by
  rw [untitledParenTail, hio]

/-- The claim-worded parenthesis shape under a matching heading prefix. -/
theorem amendedUntitledParen_some (tc r : GoStr)
    (hs : goStripStart "# untitled (".data tc = some r) :
    amendedUntitledParen tc =
      (!r.isEmpty && r.getLastD ' ' = ')' &&
        !r.dropLast.isEmpty &&
        r.dropLast.all (fun c => '0' ≤ c ∧ c ≤ '9')) := by
  rw [amendedUntitledParen, hs]

/-- The claim-worded parenthesis shape without the heading prefix. -/
theorem amendedUntitledParen_none (tc : GoStr)
    (hs : goStripStart "# untitled (".data tc = none) :
    amendedUntitledParen tc = false := by
  rw [amendedUntitledParen, hs]

/-- On trimmed content the content test of the source agrees with the claim-worded criterion: exactly the bare heading or a digit group in parentheses. -/
theorem isUntitledContent_eq (tc : GoStr) (h : goTrimSpace tc = tc) :
    isUntitledContent tc =
      (tc = "# untitled".data || amendedUntitledParen tc) := by
  by_cases h0 : tc = "# untitled".data
  · subst h0; decide
  · by_cases h1 : goStartsWith tc "# untitled".data = true
    · have hdec10 : tc = "# untitled".data ++ tc.drop 10 := by
        simpa using goStartsWith_decomp tc "# untitled".data h1
      unfold isUntitledContent
      rw [if_neg h0, if_neg (not_not_intro h1)]
      dsimp only
      by_cases hre : tc.drop 10 = []
      · exact absurd (by rw [hdec10, hre]; simp) h0
      · rw [if_neg hre]
        have hsw2 : goStartsWith tc "# untitled (".data =
            goStartsWith (tc.drop 10) ([' ', '('] : GoStr) := by
          conv_lhs => rw [hdec10]
          rw [show ("# untitled (".data : GoStr) =
            "# untitled".data ++ [' ', '('] from rfl]
          exact goStartsWith_cancel _ _ _
        by_cases hc : (tc.drop 10).headD ' ' = ' ' ∧ 1 < (tc.drop 10).length ∧
            (tc.drop 10).getD 1 ' ' = '('
        · obtain ⟨rest2, hr2⟩ : ∃ rest2, tc.drop 10 = ' ' :: '(' :: rest2 := by
            cases hrr : tc.drop 10 with
            | nil => exact absurd hrr hre
            | cons c1 rest1 =>
              cases rest1 with
              | nil =>
                rw [hrr] at hc
                simp at hc
              | cons c2 rest2 =>
                rw [hrr] at hc
                obtain ⟨hc1, -, hc2⟩ := hc
                simp at hc1 hc2
                exact ⟨rest2, by rw [hc1, hc2]⟩
          have hsw : goStartsWith tc "# untitled (".data = true := by
            rw [hsw2, hr2]
            simp [goStartsWith]
          have htc12 : tc = "# untitled (".data ++ rest2 := by
            rw [hdec10, hr2]
            rfl
          have hstrip : goStripStart "# untitled (".data tc = some rest2 := by
            rw [goStripStart_eq, if_pos hsw]
            conv_lhs => rw [htc12]
            rw [show ("# untitled (".data : GoStr).length =
              ("# untitled (".data : GoStr).length from rfl]
            exact congrArg some (List.drop_left _ _)
          rw [amendedUntitledParen_some tc rest2 hstrip]
          rw [if_pos hc, hr2]
          cases hio : goIndexOfSub rest2 [')'] with
          | none =>
            have hioc : goIndexOfSub (' ' :: '(' :: rest2) [')'] = none := by
              rw [goIndexOfSub_cons_ne ' ' _ ')' (by decide),
                goIndexOfSub_cons_ne '(' _ ')' (by decide), hio]
              rfl
            rw [untitledParenTail_none _ hioc]
            have hnotin := goIndexOfSub_none ')' rest2 hio
            cases rest2 with
            | nil => simp [h0]
            | cons a l =>
              have hni : (a :: l).getLast?.getD ' ' ≠ ')' := by
                rw [List.getLast?_eq_getLast _ (by simp), Option.getD_some]
                intro hgl
                exact hnotin (by rw [← hgl]; exact List.getLast_mem _)
              simp [h0, hni]
          | some k =>
            obtain ⟨a, b, hsplit, hlen, hnotin⟩ :=
              goIndexOfSub_single_some ')' rest2 k hio
            subst hsplit
            subst hlen
            have hioc : goIndexOfSub (' ' :: '(' :: (a ++ ')' :: b)) [')'] =
                some (a.length + 1 + 1) := by
              rw [goIndexOfSub_cons_ne ' ' _ ')' (by decide),
                goIndexOfSub_cons_ne '(' _ ')' (by decide), hio]
              rfl
            rw [untitledParenTail_some _ _ hioc]
            by_cases ha : a = []
            · subst ha
              rw [if_neg (by simp)]
              cases b with
              | nil => simp [h0]
              | cons b0 b1 => simp [h0]
            · rw [if_pos (by
                have : 0 < a.length := List.length_pos.2 ha
                omega)]
              have hdrop2 :
                  (' ' :: '(' :: (a ++ ')' :: b)).drop 2 = a ++ ')' :: b := rfl
              have htake : (a ++ ')' :: b).take (a.length + 1 + 1 - 2) = a := by
                rw [show a.length + 1 + 1 - 2 = a.length from by omega]
                exact List.take_left a _
              have hdropk :
                  (' ' :: '(' :: (a ++ ')' :: b)).drop (a.length + 1 + 1 + 1) =
                    b := by
                show (a ++ ')' :: b).drop (a.length + 1) = b
                rw [show a ++ ')' :: b = (a ++ [')']) ++ b by simp]
                rw [show a.length + 1 = (a ++ [')']).length by simp]
                exact List.drop_left _ _
              rw [hdrop2, htake, hdropk]
              cases b with
              | nil =>
                have hgl : (a ++ [')']).getLastD ' ' = ')' :=
                  getLastD_append_cons a [] ')' ' '
                have hdl : (a ++ [')']).dropLast = a := by simp
                rw [hgl, hdl]
                have hd0 : goTrimSpace ([] : GoStr) = [] := rfl
                have hd2 : (a ++ [')']).isEmpty = false := by
                  cases a <;> rfl
                have hd3 : a.isEmpty = false := by
                  cases a with
                  | nil => exact absurd rfl ha
                  | cons x xs => rfl
                by_cases hallP : ∀ x ∈ a, '0' ≤ x ∧ x ≤ '9'
                · have hd1 : decide (∀ x ∈ a, '0' ≤ x ∧ x ≤ '9') = true :=
                    decide_eq_true hallP
                  have hd4 : (a.all
                      (fun c => decide ('0' ≤ c) && decide (c ≤ '9'))) =
                      true :=
                    List.all_eq_true.2 (fun x hx => by
                      have hp := hallP x hx
                      simp [hp.1, hp.2])
                  simp [h0, hd0, hd1, hd2, hd3, hd4, ha]
                · have hd1 : decide (∀ x ∈ a, '0' ≤ x ∧ x ≤ '9') = false :=
                    decide_eq_false hallP
                  have hd4 : (a.all
                      (fun c => decide ('0' ≤ c) && decide (c ≤ '9'))) =
                      false := by
                    by_contra hq
                    have hq' : (a.all
                        (fun c => decide ('0' ≤ c) && decide (c ≤ '9'))) =
                        true := by
                      simpa using hq
                    exact hallP (fun x hx => by
                      have hh := List.all_eq_true.1 hq' x hx
                      simp at hh
                      exact hh)
                  simp [h0, hd0, hd1, hd2, hd3, hd4]
              | cons b0 b1 =>
                have htrim : goTrimSpace (b0 :: b1) ≠ [] := by
                  intro hq
                  have := trimmed_suffix_nil tc
                    ("# untitled (".data ++ a ++ [')']) (b0 :: b1) h
                    (by rw [htc12]; simp) hq
                  exact List.noConfusion this
                have hdl2 : (a ++ ')' :: b0 :: b1).dropLast =
                    a ++ ')' :: (b0 :: b1).dropLast := by
                  rw [show a ++ ')' :: b0 :: b1 = (a ++ [')']) ++ b0 :: b1
                    by simp]
                  rw [List.dropLast_append_of_ne_nil _ (by simp)]
                  simp
                have hfaP : ¬∀ x ∈ a ++ ')' :: (b0 :: b1).dropLast,
                    '0' ≤ x ∧ x ≤ '9' := by
                  intro hall
                  exact absurd (hall ')' (by simp)) (by decide)
                simp [h0, htrim, hdl2, hfaP, List.all_eq_true]
        · rw [if_neg hc]
          have hswf : goStartsWith tc "# untitled (".data = false := by
            rw [hsw2]
            cases hd10 : tc.drop 10 with
            | nil => rfl
            | cons c1 r1 =>
              cases r1 with
              | nil => simp [goStartsWith]
              | cons c2 r2 =>
                rw [hd10] at hc
                have hnc : ¬(c1 = ' ' ∧ c2 = '(') := by
                  intro hcc
                  exact hc ⟨by simp [hcc.1], by simp, by simp [hcc.2]⟩
                have hun : goStartsWith (c1 :: c2 :: r2) ([' ', '('] : GoStr) =
                    (decide (c1 = ' ') &&
                      (decide (c2 = '(') && goStartsWith r2 [])) := rfl
                rw [hun, goStartsWith_nil]
                by_cases hc1 : c1 = ' '
                · by_cases hc2 : c2 = '('
                  · exact absurd ⟨hc1, hc2⟩ hnc
                  · simp [hc2]
                · simp [hc1]
          rw [amendedUntitledParen_none tc (by
            rw [goStripStart_eq, if_neg (by simp [hswf])])]
          simp [h0]
    · have h1' : goStartsWith tc "# untitled".data = false := by simpa using h1
      have h1c : goStartsWith tc "# untitled (".data = false := by
        by_contra hcc
        have hcc' : goStartsWith tc "# untitled (".data = true := by
          simpa using hcc
        rw [show ("# untitled (".data : GoStr) =
          "# untitled".data ++ [' ', '('] from rfl] at hcc'
        have := goStartsWith_prefix tc "# untitled".data [' ', '('] hcc'
        rw [this] at h1'
        exact Bool.noConfusion h1'
      unfold isUntitledContent
      rw [if_neg h0, if_pos (by simp [h1'])]
      rw [amendedUntitledParen_none tc (by
        rw [goStripStart_eq, if_neg (by simp [h1c])])]
      simp [h0]

/-- Counterexample to claim C8: the numbered file `untitled 2.md` with
trimmed content `# untitled extra` — further content after the
placeholder heading — is removed by the pass anyway, because the
numbered branch only checks the `# untitled` prefix; the claim's own
criterion says keep it. -/
theorem untitled_removal_counterexample :
    shouldRemoveUntitled (goToLower "untitled 2.md".data)
      (goTrimSpace "# untitled extra\n".data) = true ∧
    claimedUntitledRemoval (goToLower "untitled 2.md".data)
      (goTrimSpace "# untitled extra\n".data) = false ∧
    fsFiles (RemoveUntitledFiles untitledExtraTree) = [] := by
  decide

/-- Claim C8 (amended): on a trimmed content string the removal decision
holds exactly when the amended criterion does — a plain `untitled.md` is
deleted iff its content is exactly the placeholder heading (bare or with
a parenthesised number), while a numbered `untitled N.md` is deleted as
soon as its content merely starts with `# untitled`. -/
theorem untitled_removal_amended (ln tc : GoStr) (h : goTrimSpace tc = tc) :
    shouldRemoveUntitled ln tc = amendedUntitledRemoval ln tc := by
  unfold shouldRemoveUntitled amendedUntitledRemoval
  rw [isUntitledFile_eq]
  dsimp only
  by_cases h1 : ln = "untitled.md".data
  · subst h1
    rw [if_pos rfl, isUntitledContent_eq tc h]
    have hA : amendedUntitledName "untitled.md".data = true := by decide
    simp [hA]
  · rw [if_neg h1, decide_eq_false h1]
    by_cases hA : amendedUntitledName ln = true
    · rw [if_neg (not_not_intro hA), if_pos hA, hA]
      simp
    · have hA' : amendedUntitledName ln = false := by simpa using hA
      simp [hA']

/-- Witness for the amended C8 on concrete trimmed inputs. -/
theorem untitled_removal_amended_witness :
    goTrimSpace "# untitled".data = "# untitled".data ∧
    shouldRemoveUntitled "untitled.md".data "# untitled".data =
      amendedUntitledRemoval "untitled.md".data "# untitled".data :=
  ⟨by decide, untitled_removal_amended _ _ (by decide)⟩

end Docmost
